import Mathlib

/-!
Verification of `link_categorizer.py`.

The program fetches each link's readable text, extracts ranked keywords,
caches both maps as JSON files, merges near-duplicate keywords across the
corpus with a fuzzy-similarity pass, and groups links by URL host.

Modelling conventions used throughout this development:

* Python `dict`s (which preserve insertion order and have unique keys) are
  embedded as association lists `List (String × α)`; `alookup`/`ainsert`
  mirror `d[k]` / `d[k] = v`.
* Keyword scores are Python floats that are only ever carried along, never
  inspected, so they are modelled by an opaque `Int`.
* External collaborators (`requests.get` + readability + BeautifulSoup,
  `KeyBERT.extract_keywords`, `fuzz.ratio`) are oracles: they are passed in
  as function parameters, exceptions modelled with `Except`.
* The multiprocessing pool of `process_links` is sequentialised in task
  submission order: each per-link task runs to completion and the
  dispatcher's poll-site error handling is applied to it before the next
  task is considered.  The per-link state updates are exactly those of the
  Python worker `process_link` plus the dispatcher's sentinel writes.
-/

set_option maxRecDepth 8000

namespace LinkCategorizer

/-- Association-list lookup: mirrors Python `d[k]` / `k in d` on the
link-keyed dictionaries (dict keys are unique; first match wins). -/
def alookup {α : Type} (k : String) : List (String × α) → Option α
  | [] => none
  | (k', v) :: rest => if k' = k then some v else alookup k rest

/-- Python `d[k] = v`: overwrites in place when the key is present (keeping
its position, as Python dicts do) and appends the new key at the end
otherwise. -/
def ainsert {α : Type} (k : String) (v : α) : List (String × α) → List (String × α)
  | [] => [(k, v)]
  | (k', v') :: rest => if k' = k then (k, v) :: rest else (k', v') :: ainsert k v rest

/-- The keys of a dictionary, in insertion order. -/
def akeys {α : Type} (m : List (String × α)) : List String := m.map Prod.fst

/-- A `(keyword, score)` pair (`Keyword = Tuple[str, float]` in the source;
the float score is opaque, see the module comment). -/
abbrev Keyword := String × Int

/-- `Keywords = List[Keyword]` from the source. -/
abbrev Keywords := List Keyword

/-- The keyword dictionary `link -> keywords`, in dict insertion order. -/
abbrev KwMap := List (String × Keywords)

/-- The content dictionary `link -> extracted text`. -/
abbrev ContentMap := List (String × String)

/-- The `fuzz.ratio` oracle from the external `fuzzywuzzy` library: a
0–100 similarity score between two strings. -/
abbrev RatioFn := String → String → Nat

/-- `requests.get` + `raise_for_status` + readability parsing, viewed
end-to-end as an oracle from a link to the raw page (or a raised
`FetchError`). -/
abbrev FetchFn := String → Except Unit String

/-- The `KeyBERT().extract_keywords(content, top_n=5)` oracle (or a raised
extraction error). -/
abbrev ExtractFn := String → Except Unit Keywords

/-! ## Content extractor (`get_content`, lines 70–85)

`get_content` performs the HTTP GET (raising on non-2xx), builds the
readability `Document`, takes `doc.summary()`, extracts its plain text via
BeautifulSoup, and returns `doc.title()` instead of the text when the text
has fewer than 500 characters.  The three pure oracle stages
(`doc.summary()`, `soup.get_text()`, `doc.title()`) are parameters. -/
def get_content (httpGet : FetchFn) (summary getText title : String → String)
    (link : String) : Except Unit String :=
  match httpGet link with
  | .error u => .error u
  | .ok content =>
      let text := getText (summary content)
      if text.length < 500 then .ok (title content)
      else .ok text

/-! ## Per-link worker and dispatcher (`process_link` / `process_links`,
lines 108–157)

`process_link` is the function executed inside the pool worker.  It
mutates the two shared `Manager` dictionaries directly:

    if link not in contents: contents[link] = get_content(link)
    if link not in keywords: keywords[link] = get_keywords(contents[link])

and returns `None`.  The embedding returns the post-state of both shared
maps, the task outcome (`.ok ()` — note the payload is `Unit`, the Python
return value is `None`), and how many fetches / keyword extractions the
task performed.  When the fetch raises, no map was written yet; when the
extraction raises, the freshly fetched content is already in `contents`
(the shared dict was mutated before the exception). -/
structure ProcResult where
  contents : ContentMap
  keywords : KwMap
  result : Except Unit Unit
  fetches : Nat
  extracts : Nat
  deriving Repr

def process_link (f : FetchFn) (e : ExtractFn) (link : String)
    (contents : ContentMap) (keywords : KwMap) : ProcResult :=
  match alookup link contents with
  | some c =>
      match alookup link keywords with
      | some _ => ⟨contents, keywords, .ok (), 0, 0⟩
      | none =>
          match e c with
          | .ok kws => ⟨contents, ainsert link kws keywords, .ok (), 0, 1⟩
          | .error u => ⟨contents, keywords, .error u, 0, 1⟩
  | none =>
      match f link with
      | .error u => ⟨contents, keywords, .error u, 1, 0⟩
      | .ok t =>
          match alookup link (ainsert link t contents) with
          | none => ⟨ainsert link t contents, keywords, .ok (), 1, 0⟩
          | some c =>
              match alookup link keywords with
              | some _ => ⟨ainsert link t contents, keywords, .ok (), 1, 0⟩
              | none =>
                  match e c with
                  | .ok kws =>
                      ⟨ainsert link t contents, ainsert link kws keywords, .ok (), 1, 1⟩
                  | .error u => ⟨ainsert link t contents, keywords, .error u, 1, 1⟩

/-- The error-sentinel keyword set `[('ERROR', 0.0)]` written by the
dispatcher's poll-site exception handler (line 148). -/
def errKeywords : Keywords := [("ERROR", 0)]

/-- Dispatcher run state: the two shared cache maps plus counters of how
many fetches / keyword extractions the run has performed so far. -/
structure RunState where
  contents : ContentMap
  keywords : KwMap
  fetches : Nat
  extracts : Nat
  deriving Repr, DecidableEq

/-- One task as resolved by the dispatcher: the worker `process_link` runs
to completion; if it raised, the poll site (lines 141–148) catches the
exception — it is never re-raised — and forces the sentinel values
`contents[link] = ''`, `keywords[link] = [('ERROR', 0.0)]`. -/
def runTask (f : FetchFn) (e : ExtractFn) (st : RunState) (link : String) : RunState :=
  let r := process_link f e link st.contents st.keywords
  match r.result with
  | .ok _ => ⟨r.contents, r.keywords, st.fetches + r.fetches, st.extracts + r.extracts⟩
  | .error _ =>
      ⟨ainsert link "" r.contents, ainsert link errKeywords r.keywords,
        st.fetches + r.fetches, st.extracts + r.extracts⟩

/-- The dispatcher's task loop from an arbitrary run state (the
generalisation of `process_links` the inductive proofs recurse on). -/
def processFrom (f : FetchFn) (e : ExtractFn) (st : RunState)
    (links : List String) : RunState :=
  links.foldl (runTask f e) st

/-- `process_links` (lines 117–157): loads both caches, submits one task
per value of the parsed-links mapping, resolves every task (converting
failures to sentinels at the poll site), and returns `dict(keywords)` —
the whole keyword map, cache included.  `links` is
`parsed_links.values()` in order; `c0`/`k0` are the caches loaded from
disk.  The pool is sequentialised in submission order (module comment);
the periodic progress printing and intermediate cache flushes do not
affect the final maps and are not modelled. -/
def process_links (f : FetchFn) (e : ExtractFn) (links : List String)
    (c0 : ContentMap) (k0 : KwMap) : RunState :=
  processFrom f e ⟨c0, k0, 0, 0⟩ links

/-- The content a fresh (uncached) link's resolved task leaves in the
content map: the fetched text on full success, the empty-string sentinel
when the fetch or the extraction raised. -/
def taskContent (f : FetchFn) (e : ExtractFn) (l : String) : String :=
  match f l with
  | .error _ => ""
  | .ok t =>
      match e t with
      | .ok _ => t
      | .error _ => ""

/-- The keyword set a fresh link's resolved task leaves in the keyword
map: the extracted keywords on full success, the `ERROR` sentinel when
the fetch or the extraction raised. -/
def taskKeywords (f : FetchFn) (e : ExtractFn) (l : String) : Keywords :=
  match f l with
  | .error _ => errKeywords
  | .ok t =>
      match e t with
      | .ok kws => kws
      | .error _ => errKeywords

/-! ## Keyword deduplicator (`simplify_keywords`, lines 160–182)

The Python merge pass is

    for link1, kwds in keywords.items():
      for i, (kw1, str1) in enumerate(kwds):
        for link2, kwds2 in keywords.items():
          for j, (kw2, str2) in enumerate(kwds2):
            if link1 == link2 and i == j: continue
            if fuzz.ratio(kw1, kw2) > 88:
              if len(kw1) > len(kw2): kw1, kw2 = kw2, kw1
              keywords[link1][i] = (kw1, str1)
              keywords[link2][j] = (kw1, str2)

Slot `(link1, i)` is only ever written together with an identical update
of the local `kw1`, and no other write can reach `(link1, i)` while this
iteration runs (the `continue` excludes it as a `(link2, j)` target; dict
keys are unique, so key equality is position equality).  Hence throughout
the two inner loops `kw1` equals the current first component of slot
`(link1, i)`, and `str1`/`str2` equal the slots' score components, which
no write ever changes.  Each comparison is therefore a pure function of
the current map, embedded below as `step`, and the whole pass is the fold
of `step` over all ordered pairs of slot coordinates in loop order
(`mergePass`).  Writes keep every key and every list length intact, so
the coordinate lists computed from the initial map equal those the live
Python iterators produce. -/

/-- The fixed similarity threshold (line 161). -/
def THRESHOLD : Nat := 88

/-- Entry of the keyword map at link index `li` (out of range: dummy). -/
def getEntry (m : KwMap) (li : Nat) : String × Keywords :=
  m.getD li ("", [])

/-- The keyword slot at link index `li`, position `si`. -/
def getSlot (m : KwMap) (li si : Nat) : Keyword :=
  (getEntry m li).2.getD si ("", 0)

/-- Write keyword slot `(li, si)` (Python `keywords[link][i] = v`). -/
def setSlot (m : KwMap) (li si : Nat) (v : Keyword) : KwMap :=
  m.set li ((getEntry m li).1, (getEntry m li).2.set si v)

/-- One comparison of the merge pass: slots `p` (the `(link1, i)` of the
outer loops) against `q` (the `(link2, j)` of the inner loops). -/
def step (r : RatioFn) (m : KwMap) (p q : Nat × Nat) : KwMap :=
  if p = q then m
  else
    let kw1 := (getSlot m p.1 p.2).1
    let str1 := (getSlot m p.1 p.2).2
    let kw2 := (getSlot m q.1 q.2).1
    let str2 := (getSlot m q.1 q.2).2
    if r kw1 kw2 > THRESHOLD then
      let c := if kw1.length > kw2.length then kw2 else kw1
      setSlot (setSlot m p.1 p.2 (c, str1)) q.1 q.2 (c, str2)
    else m

/-- All slot coordinates `(link index, slot position)` in loop order. -/
def allCoords (m : KwMap) : List (Nat × Nat) :=
  (List.range m.length).flatMap fun li =>
    (List.range (getEntry m li).2.length).map fun si => (li, si)

/-- The full merge pass: every ordered pair of slot coordinates, outer
loops over `p`, inner loops over `q`. -/
def mergePass (r : RatioFn) (m : KwMap) : KwMap :=
  (allCoords m).foldl
    (fun acc p => (allCoords m).foldl (fun acc2 q => step r acc2 p q) acc) m

/-- The per-link reduction (lines 179–180):
`list(set([x[0] for x in kwds]))` — drop scores, deduplicate equal
strings.  Python's set iteration order is unspecified; `List.dedup`
picks one concrete order. -/
def reduceEntry (kwds : Keywords) : List String :=
  (kwds.map Prod.fst).dedup

/-- Lines 177–181: build the score-free deduplicated map from the merged
keyword map, keeping dict order. -/
def reduceMap (m : KwMap) : List (String × List String) :=
  m.map fun en => (en.1, reduceEntry en.2)

/-- `simplify_keywords` (lines 160–182).  The first component is the state
of the *argument* dictionary after the call (the merge pass mutates it in
place); the second is the returned score-free mapping, which is built from
that mutated state. -/
def simplify_keywords (r : RatioFn) (keywords : KwMap) :
    KwMap × List (String × List String) :=
  (mergePass r keywords, reduceMap (mergePass r keywords))

/-- The keyword mapping `main` (lines 214–218) writes to `keywords.json`:
the full map returned by `process_links` pushed through
`simplify_keywords`. -/
def main_keywords (r : RatioFn) (f : FetchFn) (e : ExtractFn)
    (links : List String) (c0 : ContentMap) (k0 : KwMap) :
    List (String × List String) :=
  (simplify_keywords r (process_links f e links c0 k0).keywords).2

/-- Every keyword string occurring in a keyword map. -/
def allStrings (m : KwMap) : List String :=
  m.flatMap fun en => en.2.map Prod.fst

/-! ## Domain grouper (`group_links_by_domain`, lines 185–191)

`re.match(r'https?://([^/]+)', link)` anchored at the start of the link:
literal `http`, an optional `s`, literal `://`, then a maximal nonempty
run of non-`/` characters as the host.  A non-matching link makes
`.group(1)` blow up on `None` (the `MalformedURLError` of the spec),
which aborts grouping. -/

/-- Consume the literal character pattern at the head of the input. -/
def chompLit : List Char → List Char → Option (List Char)
  | [], cs => some cs
  | _ :: _, [] => none
  | p :: ps, c :: cs => if c = p then chompLit ps cs else none

/-- The leading-URL pattern match `https?://([^/]+)`, returning the
captured host. -/
def extractDomain (link : String) : Option String :=
  match chompLit ("http".data) link.data with
  | none => none
  | some rest =>
      let rest2 := match chompLit ("s://".data) rest with
                   | some r => some r
                   | none => chompLit ("://".data) rest
      match rest2 with
      | none => none
      | some r =>
          let host := r.takeWhile (fun c => c ≠ '/')
          if host.isEmpty then none else some (String.mk host)

/-- `result_domain[domain].append(link)` on a `defaultdict(list)`:
append to the existing bucket, or append a fresh singleton bucket at the
end (defaultdict keys appear in first-touch order). -/
def addToBucket (d link : String) :
    List (String × List String) → List (String × List String)
  | [] => [(d, [link])]
  | (d', ls) :: rest =>
      if d' = d then (d', ls ++ [link]) :: rest
      else (d', ls) :: addToBucket d link rest

def groupAux (acc : List (String × List String)) :
    List String → Option (List (String × List String))
  | [] => some acc
  | link :: rest =>
      match extractDomain link with
      | none => none
      | some d => groupAux (addToBucket d link acc) rest

/-- `group_links_by_domain` on the list of URL values of its argument. -/
def group_links_by_domain (links : List String) :
    Option (List (String × List String)) :=
  groupAux [] links

/-- The bucket of a grouping result for a domain (empty if absent). -/
def bucketOf (g : List (String × List String)) (d : String) : List String :=
  match alookup d g with
  | some b => b
  | none => []

/-- The spec's "domains appear in first-seen order", written from the
spec's words as a reference for comparison with the code's grouping: scan
the domains in link order, appending each domain the first time it is
seen. -/
def specFirstSeen (ds : List String) : List String :=
  ds.foldl (fun ks d => if d ∈ ks then ks else ks ++ [d]) []

/-! ## Cache store (`load_content_cache` / `update_content_cache`,
lines 24–44)

`update_content_cache` writes `json.dumps(cache, indent=4, sort_keys=True)`
to `content_cache.txt`; `load_content_cache` returns `{}` when the file
does not exist and otherwise `json.loads` of its contents.  The file
system is modelled as the file's contents (`Option String`; `none` = no
file).  `json_dumps` / `json_loads` below model the Python `json` library
restricted to the shape this store uses — a flat object mapping strings to
strings.  The serializer emits the `indent=4, sort_keys=True` layout with
the mandatory escapes (quote, backslash, and control characters via their
short names or `\u00XX`); the parser accepts JSON whitespace and the
standard string escapes.  Byte-level encoding choices (e.g. `ensure_ascii`) differ from
CPython but both sides are valid JSON for the same object, which is the
granularity the round-trip property is stated at. -/

def lbrace : Char := Char.ofNat 123

def rbrace : Char := Char.ofNat 125

/-- Hex digit character for a value below 16 (lowercase, as CPython). -/
def hexDigit (n : Nat) : Char :=
  if n < 10 then Char.ofNat (48 + n) else Char.ofNat (87 + n)

/-- Four-digit hex rendering for a `\uXXXX` escape. -/
def hex4 (n : Nat) : List Char :=
  [hexDigit (n / 4096 % 16), hexDigit (n / 256 % 16),
   hexDigit (n / 16 % 16), hexDigit (n % 16)]

/-- JSON string escaping of one character. -/
def escapeChar (c : Char) : List Char :=
  if c = '"' then ['\\', '"']
  else if c = '\\' then ['\\', '\\']
  else if c = '\n' then ['\\', 'n']
  else if c = '\t' then ['\\', 't']
  else if c = '\r' then ['\\', 'r']
  else if c.toNat < 32 then '\\' :: 'u' :: hex4 c.toNat
  else [c]

/-- A JSON string literal (quotes included) for `s`. -/
def encStr (s : String) : List Char :=
  '"' :: (s.data.flatMap escapeChar ++ ['"'])

/-- One `"key": "value"` member. -/
def encodeEntry (e : String × String) : List Char :=
  encStr e.1 ++ (':' :: ' ' :: encStr e.2)

/-- The members of a non-empty object, separated by `,\n    `
(the `indent=4` layout). -/
def entriesChars : List (String × String) → List Char
  | [] => []
  | [e] => encodeEntry e
  | e :: rest => encodeEntry e ++ (',' :: '\n' :: ' ' :: ' ' :: ' ' :: ' ' :: entriesChars rest)

/-- Insertion into a key-sorted association list (`sort_keys=True`). -/
def insertSorted (e : String × String) :
    List (String × String) → List (String × String)
  | [] => [e]
  | x :: xs => if e.1 < x.1 then e :: x :: xs else x :: insertSorted e xs

/-- Sort the mapping's entries by key (Python compares strings by code
points, as `String.lt` does). -/
def sortByKey (m : List (String × String)) : List (String × String) :=
  m.foldr insertSorted []

/-- `json.dumps(cache, indent=4, sort_keys=True)` for a string-to-string
object. -/
def json_dumps (m : List (String × String)) : String :=
  match sortByKey m with
  | [] => String.mk [lbrace, rbrace]
  | es => String.mk
      (lbrace :: '\n' :: ' ' :: ' ' :: ' ' :: ' ' ::
        (entriesChars es ++ ('\n' :: [rbrace])))

/-- `update_content_cache` (lines 35–44): the string written to
`content_cache.txt` (the lock/flush mechanics serialize writers and do
not change the written bytes). -/
def update_content_cache (cache : List (String × String)) : String :=
  json_dumps cache

/-- JSON whitespace. -/
def isJsonWs (c : Char) : Bool :=
  c = ' ' ∨ c = '\n' ∨ c = '\t' ∨ c = '\r'

def skipWs (cs : List Char) : List Char :=
  cs.dropWhile isJsonWs

/-- Value of a hex digit character. -/
def parseHexDigit (c : Char) : Option Nat :=
  if 48 ≤ c.toNat ∧ c.toNat ≤ 57 then some (c.toNat - 48)
  else if 97 ≤ c.toNat ∧ c.toNat ≤ 102 then some (c.toNat - 87)
  else if 65 ≤ c.toNat ∧ c.toNat ≤ 70 then some (c.toNat - 55)
  else none

/-- The single-character JSON escapes. -/
def decodeEsc (c : Char) : Option Char :=
  if c = '"' then some '"'
  else if c = '\\' then some '\\'
  else if c = '/' then some '/'
  else if c = 'n' then some '\n'
  else if c = 't' then some '\t'
  else if c = 'r' then some '\r'
  else if c = 'b' then some (Char.ofNat 8)
  else if c = 'f' then some (Char.ofNat 12)
  else none

/-- Parse the body of a JSON string literal after its opening quote;
returns the decoded characters and the input after the closing quote.
A `\u` escape with fewer than four following characters falls through to
the single-character escape arm, where `decodeEsc 'u'` rejects it — the
same outcome as `json.loads`. -/
def parseStrBody : List Char → Option (List Char × List Char)
  | [] => none
  | '"' :: rest => some ([], rest)
  | '\\' :: 'u' :: h1 :: h2 :: h3 :: h4 :: rest3 =>
      (match parseHexDigit h1, parseHexDigit h2,
             parseHexDigit h3, parseHexDigit h4 with
       | some n1, some n2, some n3, some n4 =>
           (match parseStrBody rest3 with
            | some (s, r) =>
                some (Char.ofNat (4096 * n1 + 256 * n2 + 16 * n3 + n4) :: s, r)
            | none => none)
       | _, _, _, _ => none)
  | '\\' :: e :: rest2 =>
      (match decodeEsc e with
       | none => none
       | some d =>
           (match parseStrBody rest2 with
            | some (s, r) => some (d :: s, r)
            | none => none))
  | '\\' :: [] => none
  | c :: rest =>
      (match parseStrBody rest with
       | some (s, r) => some (c :: s, r)
       | none => none)

/-- Parse the members of a non-empty object, positioned at the opening
quote of the first key; returns the members and the input after the
closing brace.  `fuel` bounds the number of members (callers pass the
input length, ample since every member consumes characters). -/
def parseMembers : Nat → List Char → Option (List (String × String) × List Char)
  | 0, _ => none
  | _ + 1, [] => none
  | fuel + 1, c :: rest =>
    if c = '"' then
      match parseStrBody rest with
      | none => none
      | some (k, rest1) =>
        match skipWs rest1 with
        | ':' :: rest2 =>
          match skipWs rest2 with
          | c2 :: rest3 =>
            if c2 = '"' then
              match parseStrBody rest3 with
              | none => none
              | some (v, rest4) =>
                match skipWs rest4 with
                | ',' :: rest5 =>
                  match parseMembers fuel (skipWs rest5) with
                  | some (ms, rest6) =>
                      some ((String.mk k, String.mk v) :: ms, rest6)
                  | none => none
                | c3 :: rest5 =>
                    if c3 = rbrace then some ([(String.mk k, String.mk v)], rest5)
                    else none
                | [] => none
            else none
          | [] => none
        | _ => none
    else none

/-- `json.loads` restricted to a flat string-to-string object; `none`
models the `JSONDecodeError` a corrupt file raises. -/
def json_loads (s : String) : Option (List (String × String)) :=
  match skipWs s.data with
  | c :: rest =>
    if c = lbrace then
      match skipWs rest with
      | c2 :: rest2 =>
        if c2 = rbrace then
          if skipWs rest2 = [] then some [] else none
        else
          match parseMembers (s.data.length + 1) (c2 :: rest2) with
          | some (ms, rest3) => if skipWs rest3 = [] then some ms else none
          | none => none
      | [] => none
    else none
  | [] => none

/-- `load_content_cache` (lines 24–32): empty mapping when the file does
not exist, otherwise parse it (the `Manager.dict` copy preserves the
parsed entries). -/
def load_content_cache (file : Option String) :
    Option (List (String × String)) :=
  match file with
  | none => some []
  | some s => json_loads s

/-! ## Concrete oracle instances used by witnesses -/

/-- A concrete stand-in for `fuzz.ratio` used to exercise the merge pass
at concrete inputs: 100 on equal strings, 91 on the spec's example pair
`"neural network"` / `"neural networks"`, 0 otherwise. -/
def demoRatio : RatioFn := fun a b =>
  if a = b then 100
  else if (a = "neural network" ∧ b = "neural networks") ∨
          (a = "neural networks" ∧ b = "neural network") then 91
  else 0

/-- A concrete keyword map exercising the merge pass. -/
def demoKwMap : KwMap :=
  [("l1", [("neural networks", 5), ("database index", 3)]),
   ("l2", [("neural network", 7)])]

/-- A concrete fetch oracle that fails on `"http://bad/"` only. -/
def demoFetch : FetchFn := fun l =>
  if l = "http://bad/" then .error () else .ok ("body of " ++ l)

/-- A concrete keyword-extraction oracle. -/
def demoExtract : ExtractFn := fun t => .ok [(t ++ " kw", 1)]

/-! ## Basic lemmas about the embedded dictionary operations -/

theorem getD_set_ne {α : Type} (l : List α) (i j : Nat) (v d : α) (h : i ≠ j) :
    (l.set i v).getD j d = l.getD j d := by
  simp only [List.getD_eq_getElem?_getD, List.getElem?_set_ne h]

theorem getD_set_self {α : Type} (l : List α) (i : Nat) (v d : α) (h : i < l.length) :
    (l.set i v).getD i d = v := by
  simp only [List.getD_eq_getElem?_getD, List.getElem?_set_self h, Option.getD_some]

theorem mem_allCoords {m : KwMap} {p : Nat × Nat} :
    p ∈ allCoords m ↔ p.1 < m.length ∧ p.2 < (getEntry m p.1).2.length := by
  obtain ⟨li, si⟩ := p
  unfold allCoords
  simp only [List.mem_flatMap, List.mem_map, List.mem_range]
  constructor
  · rintro ⟨a, ha, b, hb, hab⟩
    obtain ⟨rfl, rfl⟩ : a = li ∧ b = si := by
      constructor <;> [exact congrArg Prod.fst hab; exact congrArg Prod.snd hab]
    exact ⟨ha, hb⟩
  · rintro ⟨h1, h2⟩
    exact ⟨li, h1, si, h2, rfl⟩

theorem length_setSlot (m : KwMap) (li si : Nat) (v : Keyword) :
    (setSlot m li si v).length = m.length := by
  simp [setSlot]

theorem getEntry_setSlot_ne (m : KwMap) (li si : Nat) (v : Keyword)
    (li' : Nat) (h : li' ≠ li) :
    getEntry (setSlot m li si v) li' = getEntry m li' := by
  unfold setSlot getEntry
  exact getD_set_ne _ _ _ _ _ (fun he => h he.symm)

theorem getEntry_setSlot_self (m : KwMap) (li si : Nat) (v : Keyword)
    (h : li < m.length) :
    getEntry (setSlot m li si v) li =
      ((getEntry m li).1, (getEntry m li).2.set si v) := by
  unfold setSlot getEntry
  exact getD_set_self _ _ _ _ h

theorem getEntry_setSlot_oob (m : KwMap) (li si : Nat) (v : Keyword)
    (h : m.length ≤ li) :
    setSlot m li si v = m := by
  unfold setSlot
  exact List.set_eq_of_length_le h

theorem getSlot_setSlot_self (m : KwMap) (li si : Nat) (v : Keyword)
    (hli : li < m.length) (hsi : si < (getEntry m li).2.length) :
    getSlot (setSlot m li si v) li si = v := by
  unfold getSlot
  rw [getEntry_setSlot_self m li si v hli]
  exact getD_set_self _ _ _ _ hsi

theorem getSlot_setSlot_ne (m : KwMap) (li si : Nat) (v : Keyword)
    (li' si' : Nat) (h : (li', si') ≠ (li, si)) :
    getSlot (setSlot m li si v) li' si' = getSlot m li' si' := by
  by_cases hli : li' = li
  · subst hli
    have hsi : si' ≠ si := fun he => h (by rw [he])
    by_cases hb : li' < m.length
    · unfold getSlot
      rw [getEntry_setSlot_self m li' si v hb]
      exact getD_set_ne _ _ _ _ _ (fun he => hsi he.symm)
    · rw [getEntry_setSlot_oob m li' si v (Nat.le_of_not_lt hb)]
  · unfold getSlot
    rw [getEntry_setSlot_ne m li si v li' hli]

theorem key_setSlot (m : KwMap) (li si : Nat) (v : Keyword) (li' : Nat) :
    (getEntry (setSlot m li si v) li').1 = (getEntry m li').1 := by
  by_cases hli : li' = li
  · subst hli
    by_cases hb : li' < m.length
    · rw [getEntry_setSlot_self m li' si v hb]
    · rw [getEntry_setSlot_oob m li' si v (Nat.le_of_not_lt hb)]
  · rw [getEntry_setSlot_ne m li si v li' hli]

theorem entryLen_setSlot (m : KwMap) (li si : Nat) (v : Keyword) (li' : Nat) :
    (getEntry (setSlot m li si v) li').2.length = (getEntry m li').2.length := by
  by_cases hli : li' = li
  · subst hli
    by_cases hb : li' < m.length
    · rw [getEntry_setSlot_self m li' si v hb]
      exact List.length_set ..
    · rw [getEntry_setSlot_oob m li' si v (Nat.le_of_not_lt hb)]
  · rw [getEntry_setSlot_ne m li si v li' hli]

/-! ## C1: per-comparison behavior of the merge pass -/

/-- C1: in the deduplication merge pass, each comparison of two distinct
keyword slots `p` (outer loops) and `q` (inner loops) rewrites both slots
to the shorter of the two current keyword strings (ties keeping the first,
i.e. `p`'s string) when their similarity ratio exceeds 88, each slot
retaining its own score and no other slot changing; when the ratio is at
most 88 the comparison leaves the map untouched. -/
theorem merge_comparison_behavior (r : RatioFn) (m : KwMap) (p q : Nat × Nat)
    (hpq : p ≠ q) (hp : p ∈ allCoords m) (hq : q ∈ allCoords m) :
    (THRESHOLD < r (getSlot m p.1 p.2).1 (getSlot m q.1 q.2).1 →
      getSlot (step r m p q) p.1 p.2 =
        ((if (getSlot m p.1 p.2).1.length ≤ (getSlot m q.1 q.2).1.length
            then (getSlot m p.1 p.2).1 else (getSlot m q.1 q.2).1),
          (getSlot m p.1 p.2).2) ∧
      getSlot (step r m p q) q.1 q.2 =
        ((if (getSlot m p.1 p.2).1.length ≤ (getSlot m q.1 q.2).1.length
            then (getSlot m p.1 p.2).1 else (getSlot m q.1 q.2).1),
          (getSlot m q.1 q.2).2) ∧
      (∀ p' ∈ allCoords m, p' ≠ p → p' ≠ q →
        getSlot (step r m p q) p'.1 p'.2 = getSlot m p'.1 p'.2)) ∧
    (r (getSlot m p.1 p.2).1 (getSlot m q.1 q.2).1 ≤ THRESHOLD →
      step r m p q = m) := by
  have hpb := mem_allCoords.mp hp
  have hqb := mem_allCoords.mp hq
  constructor
  · intro hr
    have hstep : step r m p q =
        setSlot (setSlot m p.1 p.2
            ((if (getSlot m p.1 p.2).1.length > (getSlot m q.1 q.2).1.length
                then (getSlot m q.1 q.2).1 else (getSlot m p.1 p.2).1),
              (getSlot m p.1 p.2).2))
          q.1 q.2
          ((if (getSlot m p.1 p.2).1.length > (getSlot m q.1 q.2).1.length
              then (getSlot m q.1 q.2).1 else (getSlot m p.1 p.2).1),
            (getSlot m q.1 q.2).2) := by
      unfold step
      rw [if_neg hpq, if_pos hr]
    have hshorter :
        (if (getSlot m p.1 p.2).1.length > (getSlot m q.1 q.2).1.length
          then (getSlot m q.1 q.2).1 else (getSlot m p.1 p.2).1) =
        (if (getSlot m p.1 p.2).1.length ≤ (getSlot m q.1 q.2).1.length
          then (getSlot m p.1 p.2).1 else (getSlot m q.1 q.2).1) := by
      rcases Nat.lt_or_ge (getSlot m q.1 q.2).1.length (getSlot m p.1 p.2).1.length
        with hlt | hge
      · rw [if_pos hlt, if_neg (Nat.not_le_of_lt hlt)]
      · rw [if_neg (Nat.not_lt_of_le hge), if_pos hge]
    have hq2b : q.2 < (getEntry (setSlot m p.1 p.2
        ((if (getSlot m p.1 p.2).1.length > (getSlot m q.1 q.2).1.length
            then (getSlot m q.1 q.2).1 else (getSlot m p.1 p.2).1),
          (getSlot m p.1 p.2).2)) q.1).2.length := by
      rw [entryLen_setSlot]
      exact hqb.2
    refine ⟨?_, ?_, ?_⟩
    · rw [hstep,
        getSlot_setSlot_ne _ _ _ _ _ _
          (fun he => hpq (Prod.ext_iff.mpr
            ⟨congrArg Prod.fst he, congrArg Prod.snd he⟩)),
        getSlot_setSlot_self _ _ _ _ hpb.1 hpb.2, hshorter]
    · rw [hstep, getSlot_setSlot_self _ _ _ _ ?_ hq2b, hshorter]
      rw [length_setSlot]
      exact hqb.1
    · intro p' _ hp'p hp'q
      rw [hstep,
        getSlot_setSlot_ne _ _ _ _ _ _
          (fun he => hp'q (Prod.ext_iff.mpr
            ⟨congrArg Prod.fst he, congrArg Prod.snd he⟩)),
        getSlot_setSlot_ne _ _ _ _ _ _
          (fun he => hp'p (Prod.ext_iff.mpr
            ⟨congrArg Prod.fst he, congrArg Prod.snd he⟩))]
  · intro hr
    unfold step
    rw [if_neg hpq, if_neg (Nat.not_lt_of_le hr)]

/-- Witness for C1: on the spec's example pair, the comparison of the
slot holding `"neural networks"` against the slot holding
`"neural network"` (demo ratio 91 > 88) rewrites both slots to the
shorter `"neural network"`, keeping each slot's score. -/
theorem merge_comparison_behavior_witness :
    getSlot (step demoRatio demoKwMap (0, 0) (1, 0)) 0 0 = ("neural network", 5) ∧
    getSlot (step demoRatio demoKwMap (0, 0) (1, 0)) 1 0 = ("neural network", 7) := by
  have h := (merge_comparison_behavior demoRatio demoKwMap (0, 0) (1, 0)
    (by decide) (by decide) (by decide)).1 (by decide)
  refine ⟨?_, ?_⟩
  · rw [h.1]; decide
  · rw [h.2.1]; decide

/-! ## C4: short-text fallback of the content extractor -/

/-- C4: for a successfully fetched page, `get_content` returns the page's
title when the extracted plain text is shorter than 500 characters, and
the extracted text verbatim when it has at least 500 characters. -/
theorem get_content_fallback (httpGet : FetchFn)
    (summary getText title : String → String) (link content : String)
    (hfetch : httpGet link = .ok content) :
    ((getText (summary content)).length < 500 →
      get_content httpGet summary getText title link = .ok (title content)) ∧
    (500 ≤ (getText (summary content)).length →
      get_content httpGet summary getText title link =
        .ok (getText (summary content))) := by
  unfold get_content
  rw [hfetch]
  constructor
  · intro h
    simp only [if_pos h]
  · intro h
    simp only [if_neg (Nat.not_lt_of_le h)]

/-- Witness for C4: a page whose extracted text is 4 characters long
falls back to the title, and one whose text is 500 characters long is
returned verbatim. -/
theorem get_content_fallback_witness :
    get_content (fun _ => .ok "page") (fun c => c) (fun _ => "tiny")
      (fun _ => "The Title") "http://a/" = .ok "The Title" ∧
    get_content (fun _ => .ok "page") (fun c => c)
      (fun _ => String.mk (List.replicate 500 'a')) (fun _ => "The Title")
      "http://a/" = .ok (String.mk (List.replicate 500 'a')) := by
  constructor
  · exact (get_content_fallback (fun _ => .ok "page") (fun c => c)
      (fun _ => "tiny") (fun _ => "The Title") "http://a/" "page" rfl).1 (by decide)
  · exact (get_content_fallback (fun _ => .ok "page") (fun c => c)
      (fun _ => String.mk (List.replicate 500 'a')) (fun _ => "The Title")
      "http://a/" "page" rfl).2
      (by simp only [String.length_mk, List.length_replicate]; exact Nat.le_refl 500)

/-! ## Invariants of the merge pass -/

theorem foldl_inv {α β : Type} (P : β → Prop) (g : β → α → β) (l : List α)
    (hg : ∀ a ∈ l, ∀ m, P m → P (g m a)) (m : β) (hm : P m) : P (l.foldl g m) := by
  induction l generalizing m with
  | nil => exact hm
  | cons x xs ih =>
      exact ih (fun a ha m hm => hg a (List.mem_cons_of_mem _ ha) m hm) _
        (hg x (List.mem_cons_self _ _) m hm)

theorem mergePass_inv (P : KwMap → Prop) (r : RatioFn) (m0 : KwMap)
    (hstep : ∀ p ∈ allCoords m0, ∀ q ∈ allCoords m0, ∀ m, P m → P (step r m p q))
    (hm : P m0) : P (mergePass r m0) := by
  unfold mergePass
  exact foldl_inv P _ (allCoords m0)
    (fun p hp m hm => foldl_inv P _ (allCoords m0)
      (fun q hq m hm => hstep p hp q hq m hm) m hm) m0 hm

/-- The canonical keyword a merging comparison writes to both slots: the
shorter of the two current strings, `p`'s on ties. -/
def mergedKw (m : KwMap) (p q : Nat × Nat) : String :=
  if (getSlot m p.1 p.2).1.length > (getSlot m q.1 q.2).1.length
  then (getSlot m q.1 q.2).1 else (getSlot m p.1 p.2).1

/-- A comparison either leaves the map unchanged or rewrites the two
compared slots to the canonical keyword with scores kept. -/
theorem step_eq (r : RatioFn) (m : KwMap) (p q : Nat × Nat) :
    step r m p q = m ∨
    (p ≠ q ∧ THRESHOLD < r (getSlot m p.1 p.2).1 (getSlot m q.1 q.2).1 ∧
      step r m p q =
        setSlot (setSlot m p.1 p.2 (mergedKw m p q, (getSlot m p.1 p.2).2))
          q.1 q.2 (mergedKw m p q, (getSlot m q.1 q.2).2)) := by
  unfold step mergedKw
  by_cases h1 : p = q
  · left
    rw [if_pos h1]
  · rw [if_neg h1]
    by_cases h2 : THRESHOLD < r (getSlot m p.1 p.2).1 (getSlot m q.1 q.2).1
    · right
      exact ⟨h1, h2, by rw [if_pos h2]⟩
    · left
      rw [if_neg h2]

theorem step_shape (r : RatioFn) (m : KwMap) (p q : Nat × Nat) :
    (step r m p q).length = m.length ∧
    ∀ li, (getEntry (step r m p q) li).1 = (getEntry m li).1 ∧
      (getEntry (step r m p q) li).2.length = (getEntry m li).2.length := by
  rcases step_eq r m p q with h | ⟨_, _, h⟩
  · rw [h]
    exact ⟨rfl, fun li => ⟨rfl, rfl⟩⟩
  · rw [h]
    refine ⟨by rw [length_setSlot, length_setSlot], fun li => ⟨?_, ?_⟩⟩
    · rw [key_setSlot, key_setSlot]
    · rw [entryLen_setSlot, entryLen_setSlot]

theorem mergePass_shape (r : RatioFn) (m : KwMap) :
    (mergePass r m).length = m.length ∧
    ∀ li, (getEntry (mergePass r m) li).1 = (getEntry m li).1 ∧
      (getEntry (mergePass r m) li).2.length = (getEntry m li).2.length := by
  refine mergePass_inv
    (fun m' => m'.length = m.length ∧
      ∀ li, (getEntry m' li).1 = (getEntry m li).1 ∧
        (getEntry m' li).2.length = (getEntry m li).2.length)
    r m (fun p _ q _ m' hm' => ?_) ⟨rfl, fun li => ⟨rfl, rfl⟩⟩
  obtain ⟨hlen, hent⟩ := hm'
  obtain ⟨slen, sent⟩ := step_shape r m' p q
  refine ⟨by rw [slen, hlen], fun li => ?_⟩
  obtain ⟨h1, h2⟩ := hent li
  obtain ⟨s1, s2⟩ := sent li
  exact ⟨by rw [s1, h1], by rw [s2, h2]⟩

theorem getD_map {α β : Type} (f : α → β) (l : List α) (i : Nat) (d : β)
    (d' : α) (h : i < l.length) : (l.map f).getD i d = f (l.getD i d') := by
  simp only [List.getD_eq_getElem?_getD, List.getElem?_map,
    List.getElem?_eq_getElem h, Option.map_some', Option.getD_some]

/-! ## C7: soundness of the per-link reduction -/

/-- C7: after the merge pass, the reduction drops scores and deduplicates
identical strings, so each link keeps its key, its final keyword list is
no longer than its raw keyword set, and every final keyword occurs among
that link's keyword strings as rewritten by the merge pass. -/
theorem reduce_keywords_sound (r : RatioFn) (keywords : KwMap) (li : Nat)
    (hli : li < keywords.length) :
    (simplify_keywords r keywords).2.length = keywords.length ∧
    ((simplify_keywords r keywords).2.getD li ("", [])).1 =
      (getEntry keywords li).1 ∧
    ((simplify_keywords r keywords).2.getD li ("", [])).2.length ≤
      (getEntry keywords li).2.length ∧
    ∀ s ∈ ((simplify_keywords r keywords).2.getD li ("", [])).2,
      s ∈ (getEntry (mergePass r keywords) li).2.map Prod.fst := by
  obtain ⟨hlen, hent⟩ := mergePass_shape r keywords
  have hli' : li < (mergePass r keywords).length := by rw [hlen]; exact hli
  have hred : (simplify_keywords r keywords).2.getD li ("", []) =
      ((getEntry (mergePass r keywords) li).1,
        reduceEntry (getEntry (mergePass r keywords) li).2) := by
    show (reduceMap (mergePass r keywords)).getD li ("", []) = _
    unfold reduceMap
    exact getD_map _ _ _ _ ("", []) hli'
  refine ⟨?_, ?_, ?_, ?_⟩
  · show (reduceMap (mergePass r keywords)).length = keywords.length
    unfold reduceMap
    rw [List.length_map, hlen]
  · rw [hred]
    exact (hent li).1
  · rw [hred]
    calc (reduceEntry (getEntry (mergePass r keywords) li).2).length
        ≤ ((getEntry (mergePass r keywords) li).2.map Prod.fst).length :=
          (List.dedup_sublist _).length_le
      _ = (getEntry (mergePass r keywords) li).2.length := List.length_map _ _
      _ = (getEntry keywords li).2.length := (hent li).2
  · intro s hs
    rw [hred] at hs
    exact List.mem_dedup.mp hs

/-- Witness for C7: on the demo corpus the first link's reduced keyword
list is no longer than its raw keyword set. -/
theorem reduce_keywords_sound_witness :
    ((simplify_keywords demoRatio demoKwMap).2.getD 0 ("", [])).2.length ≤
      (getEntry demoKwMap 0).2.length :=
  (reduce_keywords_sound demoRatio demoKwMap 0 (by decide)).2.2.1

/-! ## C5: domain grouping -/

theorem addToBucket_nil (d link : String) :
    addToBucket d link [] = [(d, [link])] := rfl

theorem addToBucket_cons (d link dx : String) (ls : List String)
    (rest : List (String × List String)) :
    addToBucket d link ((dx, ls) :: rest) =
      if dx = d then (dx, ls ++ [link]) :: rest
      else (dx, ls) :: addToBucket d link rest := rfl

theorem addToBucket_keys (d link : String) (acc : List (String × List String)) :
    akeys (addToBucket d link acc) =
      if d ∈ akeys acc then akeys acc else akeys acc ++ [d] := by
  induction acc with
  | nil => rfl
  | cons x rest ih =>
      obtain ⟨d', ls⟩ := x
      by_cases h : d' = d
      · subst h
        rw [addToBucket_cons, if_pos rfl]
        rw [if_pos (show d' ∈ akeys ((d', ls) :: rest) from List.mem_cons_self _ _)]
        rfl
      · have hdd' : ¬d = d' := fun he => h he.symm
        rw [addToBucket_cons, if_neg h]
        show d' :: akeys (addToBucket d link rest) =
          if d ∈ akeys ((d', ls) :: rest) then akeys ((d', ls) :: rest)
          else akeys ((d', ls) :: rest) ++ [d]
        rw [ih]
        have hmemc : d ∈ akeys ((d', ls) :: rest) ↔ d ∈ akeys rest := by
          show d ∈ d' :: akeys rest ↔ _
          rw [List.mem_cons]
          exact ⟨fun hc => hc.resolve_left hdd', Or.inr⟩
        by_cases hmem : d ∈ akeys rest
        · rw [if_pos hmem, if_pos (hmemc.mpr hmem)]
          rfl
        · rw [if_neg hmem, if_neg (fun hc => hmem (hmemc.mp hc))]
          rfl

theorem bucketOf_cons_self (d : String) (ls : List String)
    (rest : List (String × List String)) :
    bucketOf ((d, ls) :: rest) d = ls := by
  simp [bucketOf, alookup]

theorem bucketOf_cons_ne (dx : String) (ls : List String)
    (rest : List (String × List String)) (d' : String) (h : ¬dx = d') :
    bucketOf ((dx, ls) :: rest) d' = bucketOf rest d' := by
  simp [bucketOf, alookup, h]

theorem bucketOf_addToBucket (d link : String) (acc : List (String × List String))
    (d' : String) :
    bucketOf (addToBucket d link acc) d' =
      if d' = d then bucketOf acc d' ++ [link] else bucketOf acc d' := by
  induction acc with
  | nil =>
      rw [addToBucket_nil]
      by_cases h : d' = d
      · rw [h, bucketOf_cons_self]
        simp [bucketOf, alookup]
      · rw [bucketOf_cons_ne d [link] [] d' (fun he => h he.symm), if_neg h]
  | cons x rest ih =>
      obtain ⟨dx, ls⟩ := x
      by_cases hx : dx = d
      · rw [addToBucket_cons, if_pos hx]
        by_cases h : d' = dx
        · rw [h, if_pos hx, bucketOf_cons_self, bucketOf_cons_self]
        · rw [bucketOf_cons_ne _ _ _ _ (fun he => h he.symm),
            if_neg (fun he : d' = d => h (he.trans hx.symm)),
            bucketOf_cons_ne _ _ _ _ (fun he => h he.symm)]
      · rw [addToBucket_cons, if_neg hx]
        by_cases h : d' = dx
        · rw [h, if_neg hx, bucketOf_cons_self, bucketOf_cons_self]
        · rw [bucketOf_cons_ne _ _ _ _ (fun he => h he.symm),
            bucketOf_cons_ne _ _ _ _ (fun he => h he.symm), ih]

theorem groupAux_ok (links : List String) :
    ∀ acc, (∀ l ∈ links, (extractDomain l).isSome) →
    ∃ g, groupAux acc links = some g ∧
      akeys g = (links.filterMap extractDomain).foldl
        (fun ks d => if d ∈ ks then ks else ks ++ [d]) (akeys acc) ∧
      ∀ d, bucketOf g d = bucketOf acc d ++
        links.filter (fun l => extractDomain l == some d) := by
  induction links with
  | nil =>
      intro acc _
      exact ⟨acc, rfl, rfl, fun d => by simp⟩
  | cons l ls ih =>
      intro acc hsome
      obtain ⟨d0, hd0⟩ : ∃ d0, extractDomain l = some d0 := by
        have := hsome l (List.mem_cons_self _ _)
        exact Option.isSome_iff_exists.mp this
      obtain ⟨g, hg, hk, hb⟩ :=
        ih (addToBucket d0 l acc) (fun l' hl' => hsome l' (List.mem_cons_of_mem _ hl'))
      refine ⟨g, ?_, ?_, ?_⟩
      · show groupAux acc (l :: ls) = some g
        unfold groupAux
        rw [hd0]
        exact hg
      · rw [hk, addToBucket_keys]
        have : (l :: ls).filterMap extractDomain = d0 :: ls.filterMap extractDomain := by
          rw [List.filterMap_cons, hd0]
        rw [this, List.foldl_cons]
      · intro d
        rw [hb, bucketOf_addToBucket, List.filter_cons]
        by_cases hd : d = d0
        · have hpl : (extractDomain l == some d) = true := by
            rw [hd0, hd]
            exact beq_self_eq_true _
          rw [if_pos hd, if_pos hpl, List.append_assoc]
          rfl
        · have hpl : ¬((extractDomain l == some d) = true) := by
            rw [hd0]
            intro hbeq
            exact hd (Option.some.inj (eq_of_beq hbeq)).symm
          rw [if_neg hd, if_neg hpl]

theorem groupAux_fail (links : List String) :
    ∀ acc l, l ∈ links → extractDomain l = none → groupAux acc links = none := by
  induction links with
  | nil =>
      intro _ l hl
      exact absurd hl (List.not_mem_nil _)
  | cons x ls ih =>
      intro acc l hl hnone
      unfold groupAux
      rcases List.mem_cons.mp hl with rfl | hmem
      · rw [hnone]
      · cases hx : extractDomain x with
        | none => rfl
        | some d => exact ih _ l hmem hnone

/-- C5: domain grouping maps every link to the host captured by the
leading `https?://([^/]+)` pattern (the spec's example evaluates as
stated), fails on a link the pattern does not match, and on success the
bucket of each domain is the in-order sublist of links with that host
while the domains appear in first-seen order. -/
theorem group_links_by_domain_correct (links : List String) :
    (∀ l ∈ links, extractDomain l = none → group_links_by_domain links = none) ∧
    ((∀ l ∈ links, (extractDomain l).isSome) →
      ∃ g, group_links_by_domain links = some g ∧
        akeys g = specFirstSeen (links.filterMap extractDomain) ∧
        ∀ d, bucketOf g d = links.filter (fun l => extractDomain l == some d)) ∧
    extractDomain "https://a.com/x" = some "a.com" ∧
    extractDomain "http://a.com" = some "a.com" ∧
    extractDomain "notaurl" = none ∧
    group_links_by_domain
        ["https://a.com/x", "https://a.com/y", "https://b.com/z"] =
      some [("a.com", ["https://a.com/x", "https://a.com/y"]),
            ("b.com", ["https://b.com/z"])] := by
  refine ⟨fun l hl hnone => groupAux_fail links [] l hl hnone,
    fun hsome => ?_, by decide, by decide, by decide, by decide⟩
  obtain ⟨g, hg, hk, hb⟩ := groupAux_ok links [] hsome
  exact ⟨g, hg, hk, fun d => by rw [hb d]; rfl⟩

/-- Witness for C5: a malformed link aborts grouping; an all-wellformed
link list groups successfully. -/
theorem group_links_by_domain_correct_witness :
    group_links_by_domain ["https://a.com/x", "oops"] = none ∧
    (group_links_by_domain ["https://a.com/x", "https://b.com/z"]).isSome := by
  constructor
  · exact (group_links_by_domain_correct ["https://a.com/x", "oops"]).1 "oops"
      (by decide) (by decide)
  · obtain ⟨g, hg, _, _⟩ :=
      (group_links_by_domain_correct ["https://a.com/x", "https://b.com/z"]).2.1
        (by decide)
    rw [hg]
    rfl

/-! ## C10: simplify_keywords mutates its argument in place -/

/-- C10: `simplify_keywords` leaves its argument dictionary holding the
merged (rewritten) keyword lists — the first component below is the
argument's state after the call — and the returned score-free mapping is
computed from that mutated state; on a concrete input with a
similarity-mergeable pair the mutated state genuinely differs from the
raw input. -/
theorem simplify_keywords_mutates_in_place (r : RatioFn) (keywords : KwMap) :
    (simplify_keywords r keywords).1 = mergePass r keywords ∧
    (simplify_keywords r keywords).2 =
      reduceMap ((simplify_keywords r keywords).1) ∧
    (simplify_keywords demoRatio demoKwMap).1 =
      [("l1", [("neural network", 5), ("database index", 3)]),
       ("l2", [("neural network", 7)])] ∧
    (simplify_keywords demoRatio demoKwMap).1 ≠ demoKwMap := by
  refine ⟨rfl, rfl, by decide, by decide⟩

/-! ## Lemmas about the embedded dictionaries -/

theorem alookup_ainsert_self {α : Type} (k : String) (v : α)
    (m : List (String × α)) : alookup k (ainsert k v m) = some v := by
  induction m with
  | nil => simp [ainsert, alookup]
  | cons x rest ih =>
      obtain ⟨k', v'⟩ := x
      by_cases h : k' = k
      · simp [ainsert, alookup, h]
      · simp [ainsert, alookup, h, ih]

theorem alookup_ainsert_ne {α : Type} (k k' : String) (v : α)
    (m : List (String × α)) (h : k' ≠ k) :
    alookup k' (ainsert k v m) = alookup k' m := by
  have h2 : ¬k = k' := fun he => h he.symm
  induction m with
  | nil => simp [ainsert, alookup, h2]
  | cons x rest ih =>
      obtain ⟨kx, vx⟩ := x
      by_cases hx : kx = k
      · subst hx
        simp [ainsert, alookup, h2]
      · simp only [ainsert, if_neg hx, alookup]
        by_cases hk' : kx = k'
        · rw [if_pos hk', if_pos hk']
        · rw [if_neg hk', if_neg hk']
          exact ih

theorem mem_akeys_of_alookup {α : Type} (k : String) (v : α)
    (m : List (String × α)) (h : alookup k m = some v) : k ∈ akeys m := by
  induction m with
  | nil => simp [alookup] at h
  | cons x rest ih =>
      obtain ⟨kx, vx⟩ := x
      by_cases hx : kx = k
      · exact hx ▸ List.mem_cons_self _ _
      · simp only [alookup, if_neg hx] at h
        exact List.mem_cons_of_mem _ (ih h)

theorem alookup_isSome_of_mem {α : Type} (k : String)
    (m : List (String × α)) (h : k ∈ akeys m) : ∃ v, alookup k m = some v := by
  induction m with
  | nil => simp [akeys] at h
  | cons x rest ih =>
      obtain ⟨kx, vx⟩ := x
      by_cases hx : kx = k
      · exact ⟨vx, by simp [alookup, hx]⟩
      · have : k ∈ akeys rest := by
          rcases List.mem_cons.mp h with he | hm
          · exact absurd he.symm hx
          · exact hm
        obtain ⟨v, hv⟩ := ih this
        exact ⟨v, by simp [alookup, hx, hv]⟩

theorem mem_akeys_ainsert_self {α : Type} (k : String) (v : α)
    (m : List (String × α)) : k ∈ akeys (ainsert k v m) :=
  mem_akeys_of_alookup k v _ (alookup_ainsert_self k v m)

theorem mem_akeys_ainsert_of_mem {α : Type} (k k' : String) (v : α)
    (m : List (String × α)) (h : k' ∈ akeys m) : k' ∈ akeys (ainsert k v m) := by
  by_cases hk : k' = k
  · exact hk ▸ mem_akeys_ainsert_self k v m
  · obtain ⟨w, hw⟩ := alookup_isSome_of_mem k' m h
    exact mem_akeys_of_alookup k' w _ ((alookup_ainsert_ne k k' v m hk).symm ▸ hw)

/-! ## Branch equations for the worker and the dispatcher's task step -/

theorem process_link_cached_both (f : FetchFn) (e : ExtractFn) (link : String)
    (c : ContentMap) (k : KwMap) (cv : String) (kv : Keywords)
    (hc : alookup link c = some cv) (hk : alookup link k = some kv) :
    process_link f e link c k = ⟨c, k, .ok (), 0, 0⟩ := by
  simp only [process_link, hc, hk]

theorem process_link_cached_content_ok (f : FetchFn) (e : ExtractFn)
    (link : String) (c : ContentMap) (k : KwMap) (cv : String) (kws : Keywords)
    (hc : alookup link c = some cv) (hk : alookup link k = none)
    (he : e cv = .ok kws) :
    process_link f e link c k = ⟨c, ainsert link kws k, .ok (), 0, 1⟩ := by
  simp only [process_link, hc, hk, he]

theorem process_link_cached_content_err (f : FetchFn) (e : ExtractFn)
    (link : String) (c : ContentMap) (k : KwMap) (cv : String) (u : Unit)
    (hc : alookup link c = some cv) (hk : alookup link k = none)
    (he : e cv = .error u) :
    process_link f e link c k = ⟨c, k, .error u, 0, 1⟩ := by
  simp only [process_link, hc, hk, he]

theorem process_link_fetch_err (f : FetchFn) (e : ExtractFn) (link : String)
    (c : ContentMap) (k : KwMap) (u : Unit)
    (hc : alookup link c = none) (hf : f link = .error u) :
    process_link f e link c k = ⟨c, k, .error u, 1, 0⟩ := by
  simp only [process_link, hc, hf]

theorem process_link_fetch_ok_cached_kw (f : FetchFn) (e : ExtractFn)
    (link : String) (c : ContentMap) (k : KwMap) (t : String) (kv : Keywords)
    (hc : alookup link c = none) (hf : f link = .ok t)
    (hk : alookup link k = some kv) :
    process_link f e link c k = ⟨ainsert link t c, k, .ok (), 1, 0⟩ := by
  simp only [process_link, hc, hf, alookup_ainsert_self, hk]

theorem process_link_fresh_ok (f : FetchFn) (e : ExtractFn) (link : String)
    (c : ContentMap) (k : KwMap) (t : String) (kws : Keywords)
    (hc : alookup link c = none) (hf : f link = .ok t)
    (hk : alookup link k = none) (he : e t = .ok kws) :
    process_link f e link c k =
      ⟨ainsert link t c, ainsert link kws k, .ok (), 1, 1⟩ := by
  simp only [process_link, hc, hf, alookup_ainsert_self, hk, he]

theorem process_link_fresh_err (f : FetchFn) (e : ExtractFn) (link : String)
    (c : ContentMap) (k : KwMap) (t : String) (u : Unit)
    (hc : alookup link c = none) (hf : f link = .ok t)
    (hk : alookup link k = none) (he : e t = .error u) :
    process_link f e link c k = ⟨ainsert link t c, k, .error u, 1, 1⟩ := by
  simp only [process_link, hc, hf, alookup_ainsert_self, hk, he]

theorem runTask_eq (f : FetchFn) (e : ExtractFn) (st : RunState)
    (link : String) :
    runTask f e st link =
      match (process_link f e link st.contents st.keywords).result with
      | .ok _ =>
          ⟨(process_link f e link st.contents st.keywords).contents,
            (process_link f e link st.contents st.keywords).keywords,
            st.fetches + (process_link f e link st.contents st.keywords).fetches,
            st.extracts + (process_link f e link st.contents st.keywords).extracts⟩
      | .error _ =>
          ⟨ainsert link "" (process_link f e link st.contents st.keywords).contents,
            ainsert link errKeywords
              (process_link f e link st.contents st.keywords).keywords,
            st.fetches + (process_link f e link st.contents st.keywords).fetches,
            st.extracts + (process_link f e link st.contents st.keywords).extracts⟩ :=
  rfl

/-! ## Lemmas about the dispatcher -/

theorem runTask_cached (f : FetchFn) (e : ExtractFn) (st : RunState)
    (link : String) (cv : String) (kv : Keywords)
    (hc : alookup link st.contents = some cv)
    (hk : alookup link st.keywords = some kv) :
    runTask f e st link = st := by
  rw [runTask_eq, process_link_cached_both f e link _ _ cv kv hc hk]
  obtain ⟨c, k, nf, ne⟩ := st
  rfl

theorem runTask_mem_self (f : FetchFn) (e : ExtractFn) (st : RunState)
    (link : String) :
    link ∈ akeys (runTask f e st link).contents ∧
    link ∈ akeys (runTask f e st link).keywords := by
  rw [runTask_eq]
  cases hc : alookup link st.contents with
  | some cv =>
      have hmc := mem_akeys_of_alookup link cv _ hc
      cases hk : alookup link st.keywords with
      | some kv =>
          rw [process_link_cached_both f e link _ _ cv kv hc hk]
          exact ⟨hmc, mem_akeys_of_alookup link kv _ hk⟩
      | none =>
          cases he : e cv with
          | ok kws =>
              rw [process_link_cached_content_ok f e link _ _ cv kws hc hk he]
              exact ⟨hmc, mem_akeys_ainsert_self _ _ _⟩
          | error u =>
              rw [process_link_cached_content_err f e link _ _ cv u hc hk he]
              exact ⟨mem_akeys_ainsert_self _ _ _, mem_akeys_ainsert_self _ _ _⟩
  | none =>
      cases hf : f link with
      | error u =>
          rw [process_link_fetch_err f e link _ _ u hc hf]
          exact ⟨mem_akeys_ainsert_self _ _ _, mem_akeys_ainsert_self _ _ _⟩
      | ok t =>
          cases hk : alookup link st.keywords with
          | some kv =>
              rw [process_link_fetch_ok_cached_kw f e link _ _ t kv hc hf hk]
              exact ⟨mem_akeys_ainsert_self _ _ _, mem_akeys_of_alookup link kv _ hk⟩
          | none =>
              cases he : e t with
              | ok kws =>
                  rw [process_link_fresh_ok f e link _ _ t kws hc hf hk he]
                  exact ⟨mem_akeys_ainsert_self _ _ _, mem_akeys_ainsert_self _ _ _⟩
              | error u =>
                  rw [process_link_fresh_err f e link _ _ t u hc hf hk he]
                  exact ⟨mem_akeys_ainsert_self _ _ _, mem_akeys_ainsert_self _ _ _⟩

theorem runTask_keys_mono (f : FetchFn) (e : ExtractFn) (st : RunState)
    (link l : String) :
    (l ∈ akeys st.contents → l ∈ akeys (runTask f e st link).contents) ∧
    (l ∈ akeys st.keywords → l ∈ akeys (runTask f e st link).keywords) := by
  rw [runTask_eq]
  cases hc : alookup link st.contents with
  | some cv =>
      cases hk : alookup link st.keywords with
      | some kv =>
          rw [process_link_cached_both f e link _ _ cv kv hc hk]
          exact ⟨id, id⟩
      | none =>
          cases he : e cv with
          | ok kws =>
              rw [process_link_cached_content_ok f e link _ _ cv kws hc hk he]
              exact ⟨id, fun h => mem_akeys_ainsert_of_mem _ _ _ _ h⟩
          | error u =>
              rw [process_link_cached_content_err f e link _ _ cv u hc hk he]
              exact ⟨fun h => mem_akeys_ainsert_of_mem _ _ _ _ h,
                fun h => mem_akeys_ainsert_of_mem _ _ _ _ h⟩
  | none =>
      cases hf : f link with
      | error u =>
          rw [process_link_fetch_err f e link _ _ u hc hf]
          exact ⟨fun h => mem_akeys_ainsert_of_mem _ _ _ _ h,
            fun h => mem_akeys_ainsert_of_mem _ _ _ _ h⟩
      | ok t =>
          cases hk : alookup link st.keywords with
          | some kv =>
              rw [process_link_fetch_ok_cached_kw f e link _ _ t kv hc hf hk]
              exact ⟨fun h => mem_akeys_ainsert_of_mem _ _ _ _ h, id⟩
          | none =>
              cases he : e t with
              | ok kws =>
                  rw [process_link_fresh_ok f e link _ _ t kws hc hf hk he]
                  exact ⟨fun h => mem_akeys_ainsert_of_mem _ _ _ _ h,
                    fun h => mem_akeys_ainsert_of_mem _ _ _ _ h⟩
              | error u =>
                  rw [process_link_fresh_err f e link _ _ t u hc hf hk he]
                  exact ⟨fun h => mem_akeys_ainsert_of_mem _ _ _ _
                    (mem_akeys_ainsert_of_mem _ _ _ _ h),
                    fun h => mem_akeys_ainsert_of_mem _ _ _ _ h⟩

theorem runTask_alookup_ne (f : FetchFn) (e : ExtractFn) (st : RunState)
    (link l : String) (h : l ≠ link) :
    alookup l (runTask f e st link).contents = alookup l st.contents ∧
    alookup l (runTask f e st link).keywords = alookup l st.keywords := by
  rw [runTask_eq]
  cases hc : alookup link st.contents with
  | some cv =>
      cases hk : alookup link st.keywords with
      | some kv =>
          rw [process_link_cached_both f e link _ _ cv kv hc hk]
          exact ⟨rfl, rfl⟩
      | none =>
          cases he : e cv with
          | ok kws =>
              rw [process_link_cached_content_ok f e link _ _ cv kws hc hk he]
              exact ⟨rfl, alookup_ainsert_ne _ _ _ _ h⟩
          | error u =>
              rw [process_link_cached_content_err f e link _ _ cv u hc hk he]
              exact ⟨alookup_ainsert_ne _ _ _ _ h, alookup_ainsert_ne _ _ _ _ h⟩
  | none =>
      cases hf : f link with
      | error u =>
          rw [process_link_fetch_err f e link _ _ u hc hf]
          exact ⟨alookup_ainsert_ne _ _ _ _ h, alookup_ainsert_ne _ _ _ _ h⟩
      | ok t =>
          cases hk : alookup link st.keywords with
          | some kv =>
              rw [process_link_fetch_ok_cached_kw f e link _ _ t kv hc hf hk]
              exact ⟨alookup_ainsert_ne _ _ _ _ h, rfl⟩
          | none =>
              cases he : e t with
              | ok kws =>
                  rw [process_link_fresh_ok f e link _ _ t kws hc hf hk he]
                  exact ⟨alookup_ainsert_ne _ _ _ _ h, alookup_ainsert_ne _ _ _ _ h⟩
              | error u =>
                  rw [process_link_fresh_err f e link _ _ t u hc hf hk he]
                  exact ⟨(alookup_ainsert_ne _ _ _ _ h).trans
                    (alookup_ainsert_ne _ _ _ _ h), alookup_ainsert_ne _ _ _ _ h⟩

theorem runTask_fresh (f : FetchFn) (e : ExtractFn) (st : RunState)
    (l : String) (hlc : alookup l st.contents = none)
    (hlk : alookup l st.keywords = none) :
    alookup l (runTask f e st l).contents = some (taskContent f e l) ∧
    alookup l (runTask f e st l).keywords = some (taskKeywords f e l) := by
  rw [runTask_eq]
  cases hf : f l with
  | error u =>
      rw [process_link_fetch_err f e l _ _ u hlc hf]
      simp only [taskContent, taskKeywords, hf]
      exact ⟨alookup_ainsert_self _ _ _, alookup_ainsert_self _ _ _⟩
  | ok t =>
      cases he : e t with
      | ok kws =>
          rw [process_link_fresh_ok f e l _ _ t kws hlc hf hlk he]
          simp only [taskContent, taskKeywords, hf, he]
          exact ⟨alookup_ainsert_self _ _ _, alookup_ainsert_self _ _ _⟩
      | error u =>
          rw [process_link_fresh_err f e l _ _ t u hlc hf hlk he]
          simp only [taskContent, taskKeywords, hf, he]
          exact ⟨alookup_ainsert_self _ _ _, alookup_ainsert_self _ _ _⟩

theorem processFrom_alookup_unlisted (f : FetchFn) (e : ExtractFn)
    (links : List String) :
    ∀ st l, l ∉ links →
      alookup l (processFrom f e st links).contents = alookup l st.contents ∧
      alookup l (processFrom f e st links).keywords = alookup l st.keywords := by
  induction links with
  | nil => exact fun st l _ => ⟨rfl, rfl⟩
  | cons x xs ih =>
      intro st l hl
      have hlx : l ≠ x := fun he => hl (he ▸ List.mem_cons_self _ _)
      have hxs : l ∉ xs := fun hm => hl (List.mem_cons_of_mem _ hm)
      obtain ⟨h1, h2⟩ := ih (runTask f e st x) l hxs
      obtain ⟨g1, g2⟩ := runTask_alookup_ne f e st x l hlx
      exact ⟨h1.trans g1, h2.trans g2⟩

theorem processFrom_keys_mono (f : FetchFn) (e : ExtractFn)
    (links : List String) :
    ∀ st l, (l ∈ akeys st.contents → l ∈ akeys (processFrom f e st links).contents) ∧
      (l ∈ akeys st.keywords → l ∈ akeys (processFrom f e st links).keywords) := by
  induction links with
  | nil => exact fun st l => ⟨id, id⟩
  | cons x xs ih =>
      intro st l
      obtain ⟨h1, h2⟩ := ih (runTask f e st x) l
      obtain ⟨g1, g2⟩ := runTask_keys_mono f e st x l
      exact ⟨fun h => h1 (g1 h), fun h => h2 (g2 h)⟩

theorem processFrom_mem_keys (f : FetchFn) (e : ExtractFn)
    (links : List String) :
    ∀ st l, l ∈ links →
      l ∈ akeys (processFrom f e st links).contents ∧
      l ∈ akeys (processFrom f e st links).keywords := by
  induction links with
  | nil =>
      intro st l hl
      exact absurd hl (List.not_mem_nil _)
  | cons x xs ih =>
      intro st l hl
      rcases List.mem_cons.mp hl with rfl | hm
      · obtain ⟨h1, h2⟩ := runTask_mem_self f e st l
        obtain ⟨g1, g2⟩ := processFrom_keys_mono f e xs (runTask f e st l) l
        exact ⟨g1 h1, g2 h2⟩
      · exact ih (runTask f e st x) l hm

theorem processFrom_fresh (f : FetchFn) (e : ExtractFn) (links : List String) :
    ∀ st l, l ∈ links → links.Nodup →
      alookup l st.contents = none → alookup l st.keywords = none →
      alookup l (processFrom f e st links).contents = some (taskContent f e l) ∧
      alookup l (processFrom f e st links).keywords = some (taskKeywords f e l) := by
  induction links with
  | nil =>
      intro st l hl
      exact absurd hl (List.not_mem_nil _)
  | cons x xs ih =>
      intro st l hl hnd hlc hlk
      rcases List.mem_cons.mp hl with rfl | hm
      · have hxs : l ∉ xs := (List.nodup_cons.mp hnd).1
        obtain ⟨h1, h2⟩ := runTask_fresh f e st l hlc hlk
        obtain ⟨g1, g2⟩ := processFrom_alookup_unlisted f e xs (runTask f e st l) l hxs
        exact ⟨g1.trans h1, g2.trans h2⟩
      · have hlx : l ≠ x := fun he =>
          ((List.nodup_cons.mp hnd).1) (he ▸ hm)
        obtain ⟨g1, g2⟩ := runTask_alookup_ne f e st x l hlx
        exact ih (runTask f e st x) l hm (List.nodup_cons.mp hnd).2
          (g1.trans hlc) (g2.trans hlk)

/-! ## C3: cache hits short-circuit fetching and extraction -/

/-- C3: a link with a Content cache entry is not fetched by its task and
one with a KeywordSet entry is not extracted; consequently a second run
over the same links, starting from the maps a first run produced,
performs zero fetches and zero extractions. -/
theorem cache_hit_short_circuit (f : FetchFn) (e : ExtractFn) (link : String)
    (c : ContentMap) (k : KwMap) (links : List String)
    (c0 : ContentMap) (k0 : KwMap) :
    (link ∈ akeys c → (process_link f e link c k).fetches = 0) ∧
    (link ∈ akeys k → (process_link f e link c k).extracts = 0) ∧
    ((process_links f e links (process_links f e links c0 k0).contents
        (process_links f e links c0 k0).keywords).fetches = 0 ∧
      (process_links f e links (process_links f e links c0 k0).contents
        (process_links f e links c0 k0).keywords).extracts = 0) := by
  refine ⟨?_, ?_, ?_⟩
  · intro hmem
    obtain ⟨v, hv⟩ := alookup_isSome_of_mem link c hmem
    cases hk : alookup link k with
    | some kv => rw [process_link_cached_both f e link c k v kv hv hk]
    | none =>
        cases he : e v with
        | ok kws => rw [process_link_cached_content_ok f e link c k v kws hv hk he]
        | error u => rw [process_link_cached_content_err f e link c k v u hv hk he]
  · intro hmem
    obtain ⟨kv, hkv⟩ := alookup_isSome_of_mem link k hmem
    cases hc : alookup link c with
    | some cv => rw [process_link_cached_both f e link c k cv kv hc hkv]
    | none =>
        cases hf : f link with
        | error u => rw [process_link_fetch_err f e link c k u hc hf]
        | ok t => rw [process_link_fetch_ok_cached_kw f e link c k t kv hc hf hkv]
  · have hwarm : ∀ st : RunState,
        (∀ l ∈ links, l ∈ akeys st.contents ∧ l ∈ akeys st.keywords) →
        processFrom f e st links = st := by
      intro st hst
      unfold processFrom
      refine foldl_inv (fun st' => st' = st) (runTask f e) links
        (fun l hl st' hst' => ?_) st rfl
      subst hst'
      obtain ⟨hc, hk⟩ := hst l hl
      obtain ⟨cv, hcv⟩ := alookup_isSome_of_mem l st'.contents hc
      obtain ⟨kv, hkv⟩ := alookup_isSome_of_mem l st'.keywords hk
      exact runTask_cached f e st' l cv kv hcv hkv
    set st1 := process_links f e links c0 k0 with hst1
    have hmem : ∀ l ∈ links,
        l ∈ akeys (⟨st1.contents, st1.keywords, 0, 0⟩ : RunState).contents ∧
        l ∈ akeys (⟨st1.contents, st1.keywords, 0, 0⟩ : RunState).keywords := by
      intro l hl
      exact processFrom_mem_keys f e links ⟨c0, k0, 0, 0⟩ l hl
    have := hwarm ⟨st1.contents, st1.keywords, 0, 0⟩ hmem
    show (processFrom f e ⟨st1.contents, st1.keywords, 0, 0⟩ links).fetches = 0 ∧
      (processFrom f e ⟨st1.contents, st1.keywords, 0, 0⟩ links).extracts = 0
    rw [this]
    exact ⟨rfl, rfl⟩

/-- Witness for C3: with a warm content entry the task performs no fetch,
and with a warm keyword entry no extraction. -/
theorem cache_hit_short_circuit_witness :
    (process_link demoFetch demoExtract "http://a/" [("http://a/", "x")]
      []).fetches = 0 ∧
    (process_link demoFetch demoExtract "http://a/" []
      [("http://a/", [("kw", 1)])]).extracts = 0 := by
  constructor
  · exact (cache_hit_short_circuit demoFetch demoExtract "http://a/"
      [("http://a/", "x")] [] [] [] []).1 (by decide)
  · exact (cache_hit_short_circuit demoFetch demoExtract "http://a/" []
      [("http://a/", [("kw", 1)])] [] [] []).2.1 (by decide)

/-! ## C9: the whole keyword cache is returned, deduplicated and written -/

theorem akeys_mergePass (r : RatioFn) (m : KwMap) :
    akeys (mergePass r m) = akeys m := by
  obtain ⟨hlen, hent⟩ := mergePass_shape r m
  apply List.ext_getElem
  · simp [akeys, hlen]
  · intro i h1 h2
    have hi : i < (mergePass r m).length := by
      simpa [akeys] using h1
    have hi' : i < m.length := by rw [hlen] at hi; exact hi
    have hkey := (hent i).1
    unfold getEntry at hkey
    rw [List.getD_eq_getElem?_getD, List.getD_eq_getElem?_getD,
      List.getElem?_eq_getElem hi, List.getElem?_eq_getElem hi'] at hkey
    simpa [akeys] using hkey

/-- C9: `process_links` returns the whole keyword cache: every key of the
pre-existing keyword cache is a key of the returned map, entries for
links absent from the current input are returned unchanged, and the
mapping written to `keywords.json` (the deduplicated one) keeps exactly
the returned map's keys. -/
theorem process_links_returns_whole_cache (r : RatioFn) (f : FetchFn)
    (e : ExtractFn) (links : List String) (c0 : ContentMap) (k0 : KwMap) :
    (∀ l ∈ akeys k0, l ∈ akeys (process_links f e links c0 k0).keywords) ∧
    (∀ l, l ∉ links →
      alookup l (process_links f e links c0 k0).keywords = alookup l k0) ∧
    akeys (main_keywords r f e links c0 k0) =
      akeys (process_links f e links c0 k0).keywords := by
  refine ⟨?_, ?_, ?_⟩
  · intro l hl
    exact (processFrom_keys_mono f e links ⟨c0, k0, 0, 0⟩ l).2 hl
  · intro l hl
    exact (processFrom_alookup_unlisted f e links ⟨c0, k0, 0, 0⟩ l hl).2
  · show akeys (reduceMap (mergePass r (process_links f e links c0 k0).keywords)) = _
    unfold reduceMap akeys
    rw [List.map_map]
    have : (Prod.fst ∘ fun en : String × Keywords => (en.1, reduceEntry en.2)) =
        Prod.fst := rfl
    rw [this]
    exact akeys_mergePass r _

/-- Witness for C9: a stale cache entry for a link absent from the input
survives the run unchanged and its key reaches the written mapping. -/
theorem process_links_returns_whole_cache_witness :
    alookup "http://old/" (process_links demoFetch demoExtract
      ["http://good/"] [] [("http://old/", [("stale", 2)])]).keywords =
      some [("stale", 2)] ∧
    akeys (main_keywords demoRatio demoFetch demoExtract ["http://good/"]
      [] [("http://old/", [("stale", 2)])]) =
      akeys (process_links demoFetch demoExtract ["http://good/"]
        [] [("http://old/", [("stale", 2)])]).keywords := by
  constructor
  · exact ((process_links_returns_whole_cache demoRatio demoFetch demoExtract
      ["http://good/"] [] [("http://old/", [("stale", 2)])]).2.1
        "http://old/" (by decide)).trans (by decide)
  · exact (process_links_returns_whole_cache demoRatio demoFetch demoExtract
      ["http://good/"] [] [("http://old/", [("stale", 2)])]).2.2

/-! ## C8: who writes the shared cache maps -/

/-- C8 counterexample: the claim that workers never mutate the shared
cache mappings and report results only through a return value is false —
the pool worker `process_link` itself writes the fetched content and the
extracted keywords into both shared maps and its return value carries no
data (Python `None`): on a fresh link the maps it returns differ from the
ones it was given while the task result is the bare `.ok ()`. -/
theorem worker_mutates_cache_counterexample :
    (process_link demoFetch demoExtract "http://a/" [] []).contents ≠ [] ∧
    (process_link demoFetch demoExtract "http://a/" [] []).keywords ≠ [] ∧
    (process_link demoFetch demoExtract "http://a/" [] []).result = .ok () := by
  refine ⟨by decide, by decide, rfl⟩

/-- C8 (amended): the pool workers themselves mutate the shared cache
mappings — a fully successful fresh task writes its link's content and
keyword entries directly and returns only `()` — touching no other
link's entries; the dispatcher's own writes are limited to the error
sentinels for failed tasks. -/
theorem worker_direct_mutation (f : FetchFn) (e : ExtractFn) (link : String)
    (c : ContentMap) (k : KwMap) :
    (∀ l, l ≠ link →
      alookup l (process_link f e link c k).contents = alookup l c ∧
      alookup l (process_link f e link c k).keywords = alookup l k) ∧
    (∀ t kws, alookup link c = none → f link = .ok t →
      alookup link k = none → e t = .ok kws →
      (process_link f e link c k).contents = ainsert link t c ∧
      (process_link f e link c k).keywords = ainsert link kws k ∧
      (process_link f e link c k).result = .ok ()) := by
  constructor
  · intro l hl
    cases hc : alookup link c with
    | some cv =>
        cases hk : alookup link k with
        | some kv =>
            rw [process_link_cached_both f e link c k cv kv hc hk]
            exact ⟨rfl, rfl⟩
        | none =>
            cases he : e cv with
            | ok kws =>
                rw [process_link_cached_content_ok f e link c k cv kws hc hk he]
                exact ⟨rfl, alookup_ainsert_ne _ _ _ _ hl⟩
            | error u =>
                rw [process_link_cached_content_err f e link c k cv u hc hk he]
                exact ⟨rfl, rfl⟩
    | none =>
        cases hf : f link with
        | error u =>
            rw [process_link_fetch_err f e link c k u hc hf]
            exact ⟨rfl, rfl⟩
        | ok t =>
            cases hk : alookup link k with
            | some kv =>
                rw [process_link_fetch_ok_cached_kw f e link c k t kv hc hf hk]
                exact ⟨alookup_ainsert_ne _ _ _ _ hl, rfl⟩
            | none =>
                cases he : e t with
                | ok kws =>
                    rw [process_link_fresh_ok f e link c k t kws hc hf hk he]
                    exact ⟨alookup_ainsert_ne _ _ _ _ hl,
                      alookup_ainsert_ne _ _ _ _ hl⟩
                | error u =>
                    rw [process_link_fresh_err f e link c k t u hc hf hk he]
                    exact ⟨alookup_ainsert_ne _ _ _ _ hl, rfl⟩
  · intro t kws hc hf hk he
    rw [process_link_fresh_ok f e link c k t kws hc hf hk he]
    exact ⟨rfl, rfl, rfl⟩

/-! ## C2: error isolation

Supporting lemmas: the keyword maps built by a run have `Nodup` keys, the
merge pass only copies strings that already occur in the corpus, and —
under the oracle assumption that no corpus keyword is similarity-mergeable
into something shorter than the sentinel — an entry holding exactly the
`ERROR` sentinel is preserved by every comparison of the pass. -/

theorem mem_of_mem_set {α : Type} (m : List α) (i : Nat) (x en : α)
    (h : en ∈ m.set i x) : en ∈ m ∨ en = x := by
  induction m generalizing i with
  | nil => simp [List.set] at h
  | cons y rest ih =>
      cases i with
      | zero =>
          rcases List.mem_cons.mp h with rfl | hm
          · exact Or.inr rfl
          · exact Or.inl (List.mem_cons_of_mem _ hm)
      | succ j =>
          rcases List.mem_cons.mp h with rfl | hm
          · exact Or.inl (List.mem_cons_self _ _)
          · rcases ih j hm with h1 | h2
            · exact Or.inl (List.mem_cons_of_mem _ h1)
            · exact Or.inr h2

theorem getEntry_mem (m : KwMap) (li : Nat) (h : li < m.length) :
    getEntry m li ∈ m := by
  unfold getEntry
  rw [List.getD_eq_getElem?_getD, List.getElem?_eq_getElem h]
  exact List.getElem_mem h

theorem getSlot_mem (m : KwMap) (li si : Nat) (_hli : li < m.length)
    (hsi : si < (getEntry m li).2.length) :
    getSlot m li si ∈ (getEntry m li).2 := by
  unfold getSlot
  rw [List.getD_eq_getElem?_getD, List.getElem?_eq_getElem hsi]
  exact List.getElem_mem hsi

theorem getSlot_mem_allStrings (m : KwMap) (li si : Nat)
    (hli : li < m.length) (hsi : si < (getEntry m li).2.length) :
    (getSlot m li si).1 ∈ allStrings m := by
  unfold allStrings
  exact List.mem_flatMap.mpr ⟨getEntry m li, getEntry_mem m li hli,
    List.mem_map.mpr ⟨getSlot m li si, getSlot_mem m li si hli hsi, rfl⟩⟩

theorem allStrings_setSlot (m : KwMap) (li si : Nat) (v : Keyword)
    (s : String) (h : s ∈ allStrings (setSlot m li si v)) :
    s ∈ allStrings m ∨ s = v.1 := by
  unfold allStrings at h
  obtain ⟨en, hen, hs⟩ := List.mem_flatMap.mp h
  obtain ⟨kw, hkw, rfl⟩ := List.mem_map.mp hs
  rcases mem_of_mem_set _ _ _ _ hen with hm | rfl
  · exact Or.inl (List.mem_flatMap.mpr ⟨en, hm, List.mem_map.mpr ⟨kw, hkw, rfl⟩⟩)
  · rcases mem_of_mem_set _ _ _ _ hkw with hk | rfl
    · by_cases hb : li < m.length
      · exact Or.inl (List.mem_flatMap.mpr ⟨getEntry m li, getEntry_mem m li hb,
          List.mem_map.mpr ⟨kw, hk, rfl⟩⟩)
      · exfalso
        have hnil : getEntry m li = ("", []) := by
          unfold getEntry
          rw [List.getD_eq_getElem?_getD,
            List.getElem?_eq_none (Nat.le_of_not_lt hb)]
          rfl
        rw [hnil] at hk
        simp at hk
    · exact Or.inr rfl

theorem mem_akeys_ainsert_elim {α : Type} (k l : String) (v : α)
    (m : List (String × α)) (h : l ∈ akeys (ainsert k v m)) :
    l ∈ akeys m ∨ l = k := by
  induction m with
  | nil =>
      rw [show ainsert k v ([] : List (String × α)) = [(k, v)] from rfl] at h
      rcases List.mem_cons.mp h with rfl | hm
      · exact Or.inr rfl
      · simp [akeys] at hm
  | cons x rest ih =>
      obtain ⟨kx, vx⟩ := x
      by_cases hx : kx = k
      · subst hx
        rw [show ainsert kx v ((kx, vx) :: rest) = (kx, v) :: rest
          from by simp [ainsert]] at h
        rcases List.mem_cons.mp h with rfl | hm
        · exact Or.inr rfl
        · exact Or.inl (List.mem_cons_of_mem _ hm)
      · rw [show ainsert k v ((kx, vx) :: rest) = (kx, vx) :: ainsert k v rest
          from by simp [ainsert, hx]] at h
        rcases List.mem_cons.mp h with rfl | hm
        · exact Or.inl (List.mem_cons_self _ _)
        · rcases ih hm with h1 | h2
          · exact Or.inl (List.mem_cons_of_mem _ h1)
          · exact Or.inr h2

theorem akeys_nodup_ainsert {α : Type} (k : String) (v : α)
    (m : List (String × α)) (h : (akeys m).Nodup) :
    (akeys (ainsert k v m)).Nodup := by
  induction m with
  | nil => simp [ainsert, akeys]
  | cons x rest ih =>
      obtain ⟨kx, vx⟩ := x
      have hx1 : kx ∉ akeys rest := (List.nodup_cons.mp h).1
      have hrest : (akeys rest).Nodup := (List.nodup_cons.mp h).2
      by_cases hx : kx = k
      · subst hx
        rw [show ainsert kx v ((kx, vx) :: rest) = (kx, v) :: rest
          from by simp [ainsert]]
        exact List.nodup_cons.mpr ⟨hx1, hrest⟩
      · rw [show ainsert k v ((kx, vx) :: rest) = (kx, vx) :: ainsert k v rest
          from by simp [ainsert, hx]]
        refine List.nodup_cons.mpr ⟨?_, ih hrest⟩
        intro hc
        rcases mem_akeys_ainsert_elim k kx v rest hc with h1 | h2
        · exact hx1 h1
        · exact hx h2

theorem runTask_keys_nodup (f : FetchFn) (e : ExtractFn) (st : RunState)
    (link : String) (hc : (akeys st.contents).Nodup)
    (hk : (akeys st.keywords).Nodup) :
    (akeys (runTask f e st link).contents).Nodup ∧
    (akeys (runTask f e st link).keywords).Nodup := by
  rw [runTask_eq]
  cases hcl : alookup link st.contents with
  | some cv =>
      cases hkl : alookup link st.keywords with
      | some kv =>
          rw [process_link_cached_both f e link _ _ cv kv hcl hkl]
          exact ⟨hc, hk⟩
      | none =>
          cases he : e cv with
          | ok kws =>
              rw [process_link_cached_content_ok f e link _ _ cv kws hcl hkl he]
              exact ⟨hc, akeys_nodup_ainsert _ _ _ hk⟩
          | error u =>
              rw [process_link_cached_content_err f e link _ _ cv u hcl hkl he]
              exact ⟨akeys_nodup_ainsert _ _ _ hc, akeys_nodup_ainsert _ _ _ hk⟩
  | none =>
      cases hf : f link with
      | error u =>
          rw [process_link_fetch_err f e link _ _ u hcl hf]
          exact ⟨akeys_nodup_ainsert _ _ _ hc, akeys_nodup_ainsert _ _ _ hk⟩
      | ok t =>
          cases hkl : alookup link st.keywords with
          | some kv =>
              rw [process_link_fetch_ok_cached_kw f e link _ _ t kv hcl hf hkl]
              exact ⟨akeys_nodup_ainsert _ _ _ hc, hk⟩
          | none =>
              cases he : e t with
              | ok kws =>
                  rw [process_link_fresh_ok f e link _ _ t kws hcl hf hkl he]
                  exact ⟨akeys_nodup_ainsert _ _ _ hc, akeys_nodup_ainsert _ _ _ hk⟩
              | error u =>
                  rw [process_link_fresh_err f e link _ _ t u hcl hf hkl he]
                  exact ⟨akeys_nodup_ainsert _ _ _ (akeys_nodup_ainsert _ _ _ hc),
                    akeys_nodup_ainsert _ _ _ hk⟩

theorem processFrom_keys_nodup (f : FetchFn) (e : ExtractFn)
    (links : List String) :
    ∀ st : RunState, (akeys st.contents).Nodup → (akeys st.keywords).Nodup →
      (akeys (processFrom f e st links).contents).Nodup ∧
      (akeys (processFrom f e st links).keywords).Nodup := by
  induction links with
  | nil => exact fun st hc hk => ⟨hc, hk⟩
  | cons x xs ih =>
      intro st hc hk
      obtain ⟨h1, h2⟩ := runTask_keys_nodup f e st x hc hk
      exact ih (runTask f e st x) h1 h2

theorem alookup_entry_unique {α : Type} (m : List (String × α)) (k : String)
    (v : α) :
    (akeys m).Nodup → alookup k m = some v →
    ∀ en ∈ m, en.1 = k → en.2 = v := by
  induction m with
  | nil =>
      intro _ _ en hen
      simp at hen
  | cons x rest ih =>
      intro hnd hl en hen henk
      obtain ⟨kx, vx⟩ := x
      by_cases hx : kx = k
      · rw [show alookup k ((kx, vx) :: rest) = some vx
          from by simp [alookup, hx]] at hl
        rcases List.mem_cons.mp hen with rfl | hm
        · simpa using hl
        · exfalso
          have hk : k ∈ akeys rest := by
            have hk' : en.1 ∈ akeys rest := List.mem_map.mpr ⟨en, hm, rfl⟩
            rwa [henk] at hk'
          exact (List.nodup_cons.mp hnd).1 (hx ▸ hk)
      · rw [show alookup k ((kx, vx) :: rest) = alookup k rest
          from by simp [alookup, hx]] at hl
        rcases List.mem_cons.mp hen with rfl | hm
        · exact absurd henk hx
        · exact ih (List.nodup_cons.mp hnd).2 hl en hm henk

theorem alookup_of_forall_sentinel {α : Type} (m : List (String × α))
    (k : String) (v : α) (hsent : ∀ en ∈ m, en.1 = k → en.2 = v)
    (hmem : k ∈ akeys m) : alookup k m = some v := by
  induction m with
  | nil => simp [akeys] at hmem
  | cons x rest ih =>
      obtain ⟨kx, vx⟩ := x
      by_cases hx : kx = k
      · have : vx = v := hsent (kx, vx) (List.mem_cons_self _ _) hx
        simp [alookup, hx, this]
      · rw [show alookup k ((kx, vx) :: rest) = alookup k rest
          from by simp [alookup, hx]]
        refine ih (fun en hen henk => hsent en (List.mem_cons_of_mem _ hen) henk) ?_
        rcases List.mem_cons.mp hmem with he | hm
        · exact absurd he.symm hx
        · exact hm

theorem alookup_reduceMap (m : KwMap) (k : String) :
    alookup k (reduceMap m) = (alookup k m).map reduceEntry := by
  induction m with
  | nil => rfl
  | cons x rest ih =>
      obtain ⟨kx, kws⟩ := x
      by_cases hx : kx = k
      · simp [reduceMap, alookup, hx]
      · simp only [reduceMap, List.map_cons] at ih ⊢
        rw [show alookup k ((kx, reduceEntry kws) :: List.map
            (fun en => (en.1, reduceEntry en.2)) rest) =
            alookup k (List.map (fun en => (en.1, reduceEntry en.2)) rest)
          from by simp [alookup, hx],
          show alookup k ((kx, kws) :: rest) = alookup k rest
          from by simp [alookup, hx]]
        exact ih

/-- The slot list written by the dispatcher for a singleton sentinel
entry is unchanged by an in-bounds rewrite that writes the sentinel
keyword back. -/
theorem errKeywords_set_zero (v : Keyword) : errKeywords.set 0 v = [v] := rfl

/-- Every comparison of the merge pass preserves the property "every
entry keyed `L` holds exactly the `ERROR` sentinel", provided no corpus
string is similarity-mergeable into something shorter than the
sentinel. -/
theorem mergePass_preserves_error_slot (r : RatioFn) (m0 : KwMap) (L : String)
    (H : ∀ s ∈ allStrings m0,
      (THRESHOLD < r "ERROR" s → 5 ≤ s.length) ∧
      (THRESHOLD < r s "ERROR" → s = "ERROR" ∨ 5 < s.length))
    (hsent : ∀ en ∈ m0, en.1 = L → en.2 = errKeywords) :
    ∀ en ∈ mergePass r m0, en.1 = L → en.2 = errKeywords := by
  have hmain := mergePass_inv
    (fun m => (m.length = m0.length ∧
        (∀ li, (getEntry m li).2.length = (getEntry m0 li).2.length)) ∧
      (∀ s ∈ allStrings m, s ∈ allStrings m0) ∧
      (∀ en ∈ m, en.1 = L → en.2 = errKeywords))
    r m0 ?_ ⟨⟨rfl, fun li => rfl⟩, fun s hs => hs, hsent⟩
  · exact hmain.2.2
  · intro p hp q hq m hm
    obtain ⟨⟨hlen, hlens⟩, hstr, hsentm⟩ := hm
    rcases step_eq r m p q with heq | ⟨hpq, hr, heq⟩
    · rw [heq]
      exact ⟨⟨hlen, hlens⟩, hstr, hsentm⟩
    · have hpb := mem_allCoords.mp hp
      have hqb := mem_allCoords.mp hq
      have hp1 : p.1 < m.length := by rw [hlen]; exact hpb.1
      have hq1 : q.1 < m.length := by rw [hlen]; exact hqb.1
      have hp2 : p.2 < (getEntry m p.1).2.length := by rw [hlens]; exact hpb.2
      have hq2 : q.2 < (getEntry m q.1).2.length := by rw [hlens]; exact hqb.2
      have hkw1 : (getSlot m p.1 p.2).1 ∈ allStrings m :=
        getSlot_mem_allStrings m p.1 p.2 hp1 hp2
      have hkw2 : (getSlot m q.1 q.2).1 ∈ allStrings m :=
        getSlot_mem_allStrings m q.1 q.2 hq1 hq2
      have hmerged : mergedKw m p q = (getSlot m p.1 p.2).1 ∨
          mergedKw m p q = (getSlot m q.1 q.2).1 := by
        unfold mergedKw
        by_cases hlt : (getSlot m p.1 p.2).1.length > (getSlot m q.1 q.2).1.length
        · exact Or.inr (if_pos hlt)
        · exact Or.inl (if_neg hlt)
      rw [heq]
      refine ⟨⟨?_, ?_⟩, ?_, ?_⟩
      · rw [length_setSlot, length_setSlot, hlen]
      · intro li
        rw [entryLen_setSlot, entryLen_setSlot, hlens]
      · intro s hs
        rcases allStrings_setSlot _ _ _ _ s hs with hs1 | hs1
        · rcases allStrings_setSlot _ _ _ _ s hs1 with hs2 | hs2
          · exact hstr s hs2
          · rcases hmerged with hm1 | hm1 <;> rw [hs2, hm1]
            · exact hstr _ hkw1
            · exact hstr _ hkw2
        · rcases hmerged with hm1 | hm1 <;> rw [hs1, hm1]
          · exact hstr _ hkw1
          · exact hstr _ hkw2
      · intro en hen henL
        -- the entry at `p` in the pre-state, when keyed L, is the sentinel
        have hPcase : (getEntry m p.1).1 = L →
            (getEntry m p.1).2.set p.2 (mergedKw m p q, (getSlot m p.1 p.2).2) =
              errKeywords := by
          intro hkeyP
          have hlist : (getEntry m p.1).2 = errKeywords :=
            hsentm (getEntry m p.1) (getEntry_mem m p.1 hp1) hkeyP
          have hp20 : p.2 = 0 := by
            rw [hlist] at hp2
            exact Nat.lt_one_iff.mp hp2
          have hslotP : getSlot m p.1 p.2 = ("ERROR", 0) := by
            unfold getSlot
            rw [hlist, hp20]
            rfl
          have hr' : THRESHOLD < r "ERROR" (getSlot m q.1 q.2).1 := by
            have h := hr
            rw [hslotP] at h
            exact h
          have h5 : 5 ≤ (getSlot m q.1 q.2).1.length := (H _ (hstr _ hkw2)).1 hr'
          have hcond : ¬((getSlot m p.1 p.2).1.length >
              (getSlot m q.1 q.2).1.length) := by
            rw [hslotP]
            show ¬((getSlot m q.1 q.2).1.length < 5)
            exact not_lt.mpr h5
          have hmergedP : mergedKw m p q = "ERROR" := by
            unfold mergedKw
            rw [if_neg hcond, hslotP]
          have hslotP' : getSlot m p.1 0 = ("ERROR", 0) := by
            rw [← hp20]
            exact hslotP
          rw [hlist, hp20, hmergedP, hslotP', errKeywords_set_zero]
          rfl
        rcases mem_of_mem_set _ _ _ _ hen with hen1 | rfl
        · -- entry survives the outer write: analyse the inner one
          rcases mem_of_mem_set _ _ _ _ hen1 with hen2 | rfl
          · exact hsentm en hen2 henL
          · exact hPcase henL
        · -- entry is the one modified by the outer write at `q`
          have hkeyQ' : (getEntry (setSlot m p.1 p.2
              (mergedKw m p q, (getSlot m p.1 p.2).2)) q.1).1 = L := henL
          have hkeyQ : (getEntry m q.1).1 = L := by
            rw [← key_setSlot m p.1 p.2 (mergedKw m p q, (getSlot m p.1 p.2).2) q.1]
            exact hkeyQ'
          have hlistQ : (getEntry m q.1).2 = errKeywords :=
            hsentm (getEntry m q.1) (getEntry_mem m q.1 hq1) hkeyQ
          have hq20 : q.2 = 0 := by
            rw [hlistQ] at hq2
            exact Nat.lt_one_iff.mp hq2
          have hslotQ : getSlot m q.1 q.2 = ("ERROR", 0) := by
            unfold getSlot
            rw [hlistQ, hq20]
            rfl
          have hne1 : p.1 ≠ q.1 := by
            intro he1
            apply hpq
            have hlistP : (getEntry m p.1).2 = errKeywords := by
              rw [he1]
              exact hlistQ
            have hp20 : p.2 = 0 := by
              rw [hlistP] at hp2
              exact Nat.lt_one_iff.mp hp2
            exact Prod.ext_iff.mpr ⟨he1, by rw [hp20, hq20]⟩
          have hlistQ' : (getEntry (setSlot m p.1 p.2
              (mergedKw m p q, (getSlot m p.1 p.2).2)) q.1).2 = errKeywords := by
            rw [getEntry_setSlot_ne m p.1 p.2 _ q.1 (fun he => hne1 he.symm)]
            exact hlistQ
          have hr' : THRESHOLD < r (getSlot m p.1 p.2).1 "ERROR" := by
            have h := hr
            rw [hslotQ] at h
            exact h
          have hmergedQ : mergedKw m p q = "ERROR" := by
            rcases (H _ (hstr _ hkw1)).2 hr' with he5 | h5
            · unfold mergedKw
              by_cases hcond : (getSlot m p.1 p.2).1.length >
                  (getSlot m q.1 q.2).1.length
              · rw [if_pos hcond, hslotQ]
              · rw [if_neg hcond, he5]
            · have hcond : (getSlot m p.1 p.2).1.length >
                  (getSlot m q.1 q.2).1.length := by
                rw [hslotQ]
                show 5 < (getSlot m p.1 p.2).1.length
                exact h5
              unfold mergedKw
              rw [if_pos hcond, hslotQ]
          have hslotQ' : getSlot m q.1 0 = ("ERROR", 0) := by
            rw [← hq20]
            exact hslotQ
          show (getEntry (setSlot m p.1 p.2
              (mergedKw m p q, (getSlot m p.1 p.2).2)) q.1).2.set q.2
              (mergedKw m p q, (getSlot m q.1 q.2).2) = errKeywords
          rw [hlistQ', hq20, hmergedQ, hslotQ', errKeywords_set_zero]
          rfl

/-- C2: with exactly one failing task among distinct submitted links, the
dispatcher (which never re-raises — `runTask` is a total function whose
error branch is the poll-site handler) stores the sentinels `''` and
`[('ERROR', 0.0)]` for the failing link, every other link completes
normally with its fetched content and extracted keywords, and — provided
no corpus keyword is similarity-mergeable with the sentinel into a
shorter string, which holds for `fuzz.ratio` against the upper-case
sentinel on real lower-case keywords — the failing link's final
deduplicated keyword list is `["ERROR"]`. -/
theorem error_isolation (f : FetchFn) (e : ExtractFn) (r : RatioFn)
    (links : List String) (L : String)
    (hmem : L ∈ links) (hnd : links.Nodup) (hfail : f L = .error ())
    (H : ∀ s ∈ allStrings (process_links f e links [] []).keywords,
      (THRESHOLD < r "ERROR" s → 5 ≤ s.length) ∧
      (THRESHOLD < r s "ERROR" → s = "ERROR" ∨ 5 < s.length)) :
    alookup L (process_links f e links [] []).contents = some "" ∧
    alookup L (process_links f e links [] []).keywords = some errKeywords ∧
    (∀ l ∈ links, l ≠ L → ∀ t kws, f l = .ok t → e t = .ok kws →
      alookup l (process_links f e links [] []).contents = some t ∧
      alookup l (process_links f e links [] []).keywords = some kws) ∧
    alookup L (simplify_keywords r
      (process_links f e links [] []).keywords).2 = some ["ERROR"] := by
  obtain ⟨hL1, hL2⟩ :=
    processFrom_fresh f e links ⟨[], [], 0, 0⟩ L hmem hnd rfl rfl
  have hLc : alookup L (process_links f e links [] []).contents = some "" := by
    rw [show process_links f e links [] [] = processFrom f e ⟨[], [], 0, 0⟩ links
      from rfl, hL1]
    simp only [taskContent, hfail]
  have hLk : alookup L (process_links f e links [] []).keywords =
      some errKeywords := by
    rw [show process_links f e links [] [] = processFrom f e ⟨[], [], 0, 0⟩ links
      from rfl, hL2]
    simp only [taskKeywords, hfail]
  refine ⟨hLc, hLk, ?_, ?_⟩
  · intro l hl hne t kws hf he
    obtain ⟨h1, h2⟩ :=
      processFrom_fresh f e links ⟨[], [], 0, 0⟩ l hl hnd rfl rfl
    constructor
    · rw [show process_links f e links [] [] =
        processFrom f e ⟨[], [], 0, 0⟩ links from rfl, h1]
      simp only [taskContent, hf, he]
    · rw [show process_links f e links [] [] =
        processFrom f e ⟨[], [], 0, 0⟩ links from rfl, h2]
      simp only [taskKeywords, hf, he]
  · have hnodup : (akeys (process_links f e links [] []).keywords).Nodup :=
      (processFrom_keys_nodup f e links ⟨[], [], 0, 0⟩
        List.nodup_nil List.nodup_nil).2
    have hsent : ∀ en ∈ (process_links f e links [] []).keywords,
        en.1 = L → en.2 = errKeywords :=
      alookup_entry_unique _ L errKeywords hnodup hLk
    have hsent' := mergePass_preserves_error_slot r
      (process_links f e links [] []).keywords L H hsent
    have hLmem : L ∈ akeys (mergePass r (process_links f e links [] []).keywords) := by
      rw [akeys_mergePass]
      exact mem_akeys_of_alookup L errKeywords _ hLk
    have hmerged : alookup L (mergePass r (process_links f e links [] []).keywords) =
        some errKeywords :=
      alookup_of_forall_sentinel _ L errKeywords hsent' hLmem
    show alookup L (reduceMap (mergePass r
      (process_links f e links [] []).keywords)) = some ["ERROR"]
    rw [alookup_reduceMap, hmerged]
    rfl

/-- Witness for C2: the two-link demo run with one failing fetch.  The
oracle hypothesis is checked by evaluation on the concrete corpus. -/
theorem error_isolation_witness :
    alookup "http://bad/" (simplify_keywords demoRatio
      (process_links demoFetch demoExtract ["http://bad/", "http://good/"]
        [] []).keywords).2 = some ["ERROR"] :=
  (error_isolation demoFetch demoExtract demoRatio
    ["http://bad/", "http://good/"] "http://bad/"
    (by decide) (by decide) rfl (by decide)).2.2.2

/-- Witness for C8's amended statement: the successful fresh demo task
writes both of its entries itself and returns the bare `()`. -/
theorem worker_direct_mutation_witness :
    (process_link demoFetch demoExtract "http://a/" [] []).contents =
      ainsert "http://a/" "body of http://a/" [] ∧
    (process_link demoFetch demoExtract "http://a/" [] []).keywords =
      ainsert "http://a/" [("body of http://a/ kw", 1)] [] ∧
    (process_link demoFetch demoExtract "http://a/" [] []).result = .ok () :=
  (worker_direct_mutation demoFetch demoExtract "http://a/" [] []).2
    "body of http://a/" [("body of http://a/ kw", 1)] rfl rfl rfl rfl

/-! ## C6: cache store round trip -/

theorem string_mk_data (s : String) : String.mk s.data = s := by
  obtain ⟨d⟩ := s
  rfl

theorem parseHexDigit_hexDigit : ∀ d : Nat, d < 16 →
    parseHexDigit (hexDigit d) = some d := by
  decide

theorem parseStrBody_u (h1 h2 h3 h4 : Char) (t : List Char) :
    parseStrBody ('\\' :: 'u' :: h1 :: h2 :: h3 :: h4 :: t) =
      match parseHexDigit h1, parseHexDigit h2,
            parseHexDigit h3, parseHexDigit h4 with
      | some n1, some n2, some n3, some n4 =>
          (match parseStrBody t with
           | some (s, r) =>
               some (Char.ofNat (4096 * n1 + 256 * n2 + 16 * n3 + n4) :: s, r)
           | none => none)
      | _, _, _, _ => none := rfl

theorem parseStrBody_plain (c : Char) (t : List Char)
    (h1 : ¬c = '"') (h2 : ¬c = '\\') :
    parseStrBody (c :: t) =
      match parseStrBody t with
      | some (s, r) => some (c :: s, r)
      | none => none :=
  parseStrBody.eq_6 c t (fun hc => h1 hc)
    (fun _ _ _ _ _ hc _ => h2 hc) (fun _ _ hc _ => h2 hc) (fun hc _ => h2 hc)

theorem parseStrBody_escapeChar (c : Char) (t : List Char) :
    parseStrBody (escapeChar c ++ t) =
      match parseStrBody t with
      | some (s, r) => some (c :: s, r)
      | none => none := by
  by_cases h1 : c = '"'
  · subst h1
    rfl
  by_cases h2 : c = '\\'
  · subst h2
    rfl
  by_cases h3 : c = '\n'
  · subst h3
    rfl
  by_cases h4 : c = '\t'
  · subst h4
    rfl
  by_cases h5 : c = '\r'
  · subst h5
    rfl
  by_cases h6 : c.toNat < 32
  · have hesc : escapeChar c = '\\' :: 'u' :: hex4 c.toNat := by
      unfold escapeChar
      rw [if_neg h1, if_neg h2, if_neg h3, if_neg h4, if_neg h5, if_pos h6]
    rw [hesc,
      show ('\\' :: 'u' :: hex4 c.toNat) ++ t =
        '\\' :: 'u' :: (hexDigit (c.toNat / 4096 % 16)) ::
          (hexDigit (c.toNat / 256 % 16)) :: (hexDigit (c.toNat / 16 % 16)) ::
          (hexDigit (c.toNat % 16)) :: t from rfl,
      parseStrBody_u,
      parseHexDigit_hexDigit _ (Nat.mod_lt _ (by decide)),
      parseHexDigit_hexDigit _ (Nat.mod_lt _ (by decide)),
      parseHexDigit_hexDigit _ (Nat.mod_lt _ (by decide)),
      parseHexDigit_hexDigit _ (Nat.mod_lt _ (by decide))]
    have harith : 4096 * (c.toNat / 4096 % 16) + 256 * (c.toNat / 256 % 16) +
        16 * (c.toNat / 16 % 16) + c.toNat % 16 = c.toNat := by
      omega
    simp only [harith, Char.ofNat_toNat]
  · have hesc : escapeChar c = [c] := by
      unfold escapeChar
      rw [if_neg h1, if_neg h2, if_neg h3, if_neg h4, if_neg h5, if_neg h6]
    rw [hesc, show [c] ++ t = c :: t from rfl]
    exact parseStrBody_plain c t h1 h2

theorem parseStrBody_escChars (s t : List Char) :
    parseStrBody (s.flatMap escapeChar ++ ('"' :: t)) = some (s, t) := by
  induction s with
  | nil => rfl
  | cons c cs ih =>
      rw [List.flatMap_cons, List.append_assoc, parseStrBody_escapeChar, ih]

theorem skipWs_colon (X : List Char) : skipWs (':' :: X) = ':' :: X := rfl

theorem skipWs_space (X : List Char) : skipWs (' ' :: X) = skipWs X := rfl

theorem skipWs_newline (X : List Char) : skipWs ('\n' :: X) = skipWs X := rfl

theorem skipWs_quote (X : List Char) : skipWs ('"' :: X) = '"' :: X := rfl

theorem skipWs_comma (X : List Char) : skipWs (',' :: X) = ',' :: X := rfl

theorem skipWs_rbrace (X : List Char) : skipWs (rbrace :: X) = rbrace :: X := rfl

theorem skipWs_nil : skipWs [] = [] := rfl

theorem data_mk (l : List Char) : (String.mk l).data = l := rfl

/-- The step equation of `parseMembers` at a fuel successor and an
opening quote. -/
theorem parseMembers_quote (fu : Nat) (rest : List Char) :
    parseMembers (fu + 1) ('"' :: rest) =
    (match parseStrBody rest with
      | none => none
      | some (k, rest1) =>
        match skipWs rest1 with
        | ':' :: rest2 =>
          match skipWs rest2 with
          | c2 :: rest3 =>
            if c2 = '"' then
              match parseStrBody rest3 with
              | none => none
              | some (v, rest4) =>
                match skipWs rest4 with
                | ',' :: rest5 =>
                  match parseMembers fu (skipWs rest5) with
                  | some (ms, rest6) =>
                      some ((String.mk k, String.mk v) :: ms, rest6)
                  | none => none
                | c3 :: rest5 =>
                    if c3 = rbrace then some ([(String.mk k, String.mk v)], rest5)
                    else none
                | [] => none
            else none
          | [] => none
        | _ => none) := rfl

/-- The serialized members of a non-empty list start with a quote. -/
theorem entriesChars_cons_quote (e : String × String)
    (rest : List (String × String)) :
    ∃ Z, entriesChars (e :: rest) = '"' :: Z := by
  obtain ⟨k, v⟩ := e
  cases rest with
  | nil =>
      exact ⟨(k.data.flatMap escapeChar ++ ['"']) ++ (':' :: ' ' :: encStr v), rfl⟩
  | cons e2 r2 =>
      exact ⟨((k.data.flatMap escapeChar ++ ['"']) ++ (':' :: ' ' :: encStr v)) ++
        (',' :: '\n' :: ' ' :: ' ' :: ' ' :: ' ' :: entriesChars (e2 :: r2)), rfl⟩

theorem skipWs_entries (e : String × String) (rest : List (String × String))
    (T : List Char) :
    skipWs (entriesChars (e :: rest) ++ T) = entriesChars (e :: rest) ++ T := by
  obtain ⟨Z, hZ⟩ := entriesChars_cons_quote e rest
  rw [hZ]
  exact skipWs_quote (Z ++ T)

/-- Parsing inverts serialization at the member-list level. -/
theorem parseMembers_entries (ms : List (String × String)) :
    ∀ fuel : Nat, ms ≠ [] → ms.length ≤ fuel →
    parseMembers fuel (entriesChars ms ++ ('\n' :: [rbrace])) = some (ms, []) := by
  induction ms with
  | nil =>
      intro fuel hne
      exact absurd rfl hne
  | cons e rest ih =>
      intro fuel _ hfuel
      obtain ⟨k, v⟩ := e
      cases fuel with
      | zero => exact absurd hfuel (by simp)
      | succ fu =>
          cases rest with
          | nil =>
              have hinput : entriesChars [(k, v)] ++ ('\n' :: [rbrace]) =
                  '"' :: (k.data.flatMap escapeChar ++ ('"' :: (':' :: (' ' :: ('"' ::
                    (v.data.flatMap escapeChar ++
                      ('"' :: ('\n' :: [rbrace])))))))) := by
                simp [entriesChars, encodeEntry, encStr, List.append_assoc]
              rw [hinput, parseMembers_quote]
              simp only [parseStrBody_escChars, skipWs_colon, skipWs_space,
                skipWs_quote, skipWs_newline, skipWs_rbrace, skipWs_nil,
                string_mk_data, if_true]
              rfl
          | cons e2 r2 =>
              have hne2 : (e2 :: r2 : List (String × String)) ≠ [] := by simp
              have hfu : (e2 :: r2).length ≤ fu := by
                simp only [List.length_cons] at hfuel ⊢
                omega
              have hih := ih fu hne2 hfu
              have hinput : entriesChars ((k, v) :: e2 :: r2) ++ ('\n' :: [rbrace]) =
                  '"' :: (k.data.flatMap escapeChar ++ ('"' :: (':' :: (' ' :: ('"' ::
                    (v.data.flatMap escapeChar ++ ('"' :: (',' :: ('\n' :: (' ' ::
                      ' ' :: ' ' :: ' ' :: (entriesChars (e2 :: r2) ++
                        ('\n' :: [rbrace])))))))))))) := by
                simp [entriesChars, encodeEntry, encStr, List.append_assoc]
              rw [hinput, parseMembers_quote]
              simp only [parseStrBody_escChars, skipWs_colon, skipWs_space,
                skipWs_quote, skipWs_newline, skipWs_comma, skipWs_entries,
                string_mk_data, if_true, hih]

/-- Each serialized member takes at least one character. -/
theorem entries_length_le (ms : List (String × String)) :
    ms.length ≤ (entriesChars ms).length := by
  induction ms with
  | nil => exact Nat.le_refl 0
  | cons e rest ih =>
      obtain ⟨k, v⟩ := e
      cases rest with
      | nil =>
          simp [entriesChars, encodeEntry, encStr, List.length_append]
      | cons e2 r2 =>
          rw [show entriesChars ((k, v) :: e2 :: r2) = encodeEntry (k, v) ++
            (',' :: '\n' :: ' ' :: ' ' :: ' ' :: ' ' :: entriesChars (e2 :: r2))
            from rfl]
          simp only [List.length_cons, List.length_append] at ih ⊢
          omega

/-- Evaluation of `json_loads` on a serialized non-empty object, given
the member-level parse. -/
theorem json_loads_shape (Z : List Char) (ms : List (String × String))
    (h : parseMembers
      ((lbrace :: '\n' :: ' ' :: ' ' :: ' ' :: ' ' ::
        (('"' :: Z) ++ ('\n' :: [rbrace]))).length + 1)
      (('"' :: Z) ++ ('\n' :: [rbrace])) = some (ms, [])) :
    json_loads (String.mk (lbrace :: '\n' :: ' ' :: ' ' :: ' ' :: ' ' ::
      (('"' :: Z) ++ ('\n' :: [rbrace])))) = some ms := by
  rw [show json_loads (String.mk (lbrace :: '\n' :: ' ' :: ' ' :: ' ' :: ' ' ::
      (('"' :: Z) ++ ('\n' :: [rbrace])))) =
      (match parseMembers
          ((lbrace :: '\n' :: ' ' :: ' ' :: ' ' :: ' ' ::
            (('"' :: Z) ++ ('\n' :: [rbrace]))).length + 1)
          (('"' :: Z) ++ ('\n' :: [rbrace])) with
       | some (ms', rest3) => if skipWs rest3 = [] then some ms' else none
       | none => none) from rfl, h]
  rfl

/-- Parsing inverts serialization. -/
theorem json_loads_dumps (m : List (String × String)) :
    json_loads (json_dumps m) = some (sortByKey m) := by
  cases hs : sortByKey m with
  | nil =>
      have hd : json_dumps m = String.mk [lbrace, rbrace] := by
        unfold json_dumps
        rw [hs]
      rw [hd]
      rfl
  | cons en es' =>
      obtain ⟨Z, hZ⟩ := entriesChars_cons_quote en es'
      have hd : json_dumps m = String.mk (lbrace :: '\n' :: ' ' :: ' ' :: ' ' :: ' ' ::
          (entriesChars (en :: es') ++ ('\n' :: [rbrace]))) := by
        unfold json_dumps
        rw [hs]
      rw [hd, hZ]
      refine json_loads_shape Z (en :: es') ?_
      have hb : (en :: es').length ≤
          (lbrace :: '\n' :: ' ' :: ' ' :: ' ' :: ' ' ::
            (('"' :: Z) ++ ('\n' :: [rbrace]))).length + 1 := by
        have h1 := entries_length_le (en :: es')
        rw [hZ] at h1
        simp only [List.length_cons, List.length_append] at h1 ⊢
        omega
      have h0 := parseMembers_entries (en :: es') _ (by simp) hb
      rw [hZ] at h0
      exact h0

/-! Insertion sort of the entries by key (`sort_keys=True`). -/

theorem insertSorted_perm (e : String × String) (l : List (String × String)) :
    (insertSorted e l).Perm (e :: l) := by
  induction l with
  | nil => exact List.Perm.refl _
  | cons x xs ih =>
      by_cases h : e.1 < x.1
      · rw [show insertSorted e (x :: xs) = e :: x :: xs
          from by simp [insertSorted, h]]
      · rw [show insertSorted e (x :: xs) = x :: insertSorted e xs
          from by simp [insertSorted, h]]
        exact (ih.cons x).trans (List.Perm.swap e x xs)

theorem sortByKey_perm (m : List (String × String)) : (sortByKey m).Perm m := by
  induction m with
  | nil => exact List.Perm.refl _
  | cons x xs ih =>
      show (insertSorted x (sortByKey xs)).Perm (x :: xs)
      exact (insertSorted_perm x (sortByKey xs)).trans (ih.cons x)

theorem insertSorted_pairwise (e : String × String)
    (l : List (String × String))
    (h : l.Pairwise (fun a b => a.1 ≤ b.1)) :
    (insertSorted e l).Pairwise (fun a b => a.1 ≤ b.1) := by
  induction l with
  | nil => exact List.pairwise_singleton _ _
  | cons x xs ih =>
      rcases List.pairwise_cons.mp h with ⟨hx, hxs⟩
      by_cases hlt : e.1 < x.1
      · rw [show insertSorted e (x :: xs) = e :: x :: xs
          from by simp [insertSorted, hlt]]
        refine List.pairwise_cons.mpr ⟨?_, h⟩
        intro y hy
        rcases List.mem_cons.mp hy with rfl | hm
        · exact le_of_lt hlt
        · exact le_trans (le_of_lt hlt) (hx y hm)
      · rw [show insertSorted e (x :: xs) = x :: insertSorted e xs
          from by simp [insertSorted, hlt]]
        refine List.pairwise_cons.mpr ⟨?_, ih hxs⟩
        intro y hy
        have hmem : y ∈ e :: xs := (insertSorted_perm e xs).mem_iff.mp hy
        rcases List.mem_cons.mp hmem with rfl | hm
        · exact not_lt.mp hlt
        · exact hx y hm

theorem sortByKey_pairwise (m : List (String × String)) :
    (sortByKey m).Pairwise (fun a b => a.1 ≤ b.1) := by
  induction m with
  | nil => exact List.Pairwise.nil
  | cons x xs ih => exact insertSorted_pairwise x _ ih

theorem alookup_perm {α : Type} (m m' : List (String × α)) (p : m.Perm m') :
    (akeys m).Nodup → ∀ k, alookup k m = alookup k m' := by
  induction p with
  | nil => exact fun _ _ => rfl
  | cons x p ih =>
      intro hnd k
      obtain ⟨kx, vx⟩ := x
      by_cases hx : kx = k
      · simp [alookup, hx]
      · simp only [alookup, if_neg hx]
        exact ih (List.nodup_cons.mp hnd).2 k
  | swap x y l =>
      intro hnd k
      obtain ⟨kx, vx⟩ := x
      obtain ⟨ky, vy⟩ := y
      have hne : ky ≠ kx := by
        intro he
        exact (List.nodup_cons.mp hnd).1 (he ▸ List.mem_cons_self kx (akeys l))
      by_cases h1 : ky = k
      · have hkx : ¬kx = k := fun he => hne (h1.trans he.symm)
        rw [show alookup k ((ky, vy) :: (kx, vx) :: l) = some vy
            from by simp [alookup, h1],
          show alookup k ((kx, vx) :: (ky, vy) :: l) = alookup k ((ky, vy) :: l)
            from by simp [alookup, hkx],
          show alookup k ((ky, vy) :: l) = some vy from by simp [alookup, h1]]
      · by_cases h2 : kx = k
        · rw [show alookup k ((ky, vy) :: (kx, vx) :: l) = alookup k ((kx, vx) :: l)
              from by simp [alookup, h1],
            show alookup k ((kx, vx) :: l) = some vx from by simp [alookup, h2],
            show alookup k ((kx, vx) :: (ky, vy) :: l) = some vx
              from by simp [alookup, h2]]
        · rw [show alookup k ((ky, vy) :: (kx, vx) :: l) = alookup k l
              from by simp [alookup, h1, h2],
            show alookup k ((kx, vx) :: (ky, vy) :: l) = alookup k l
              from by simp [alookup, h1, h2]]
  | trans p1 p2 ih1 ih2 =>
      intro hnd k
      have hnd2 : _ := ((p1.map Prod.fst).nodup_iff).mp hnd
      exact (ih1 hnd k).trans (ih2 hnd2 k)

/-- C6: the cache store round-trips: loading with no persisted file gives
the empty mapping; persisting a mapping and loading the written file
yields the key-sorted mapping, which is a permutation of (the full
content of) the original, has its keys in sorted order, and — dict keys
being unique — agrees with the original on every lookup. -/
theorem cache_round_trip (m : List (String × String)) :
    load_content_cache none = some [] ∧
    load_content_cache (some (update_content_cache m)) = some (sortByKey m) ∧
    (sortByKey m).Perm m ∧
    (sortByKey m).Pairwise (fun a b => a.1 ≤ b.1) ∧
    ((akeys m).Nodup → ∀ k, alookup k (sortByKey m) = alookup k m) := by
  refine ⟨rfl, ?_, sortByKey_perm m, sortByKey_pairwise m, ?_⟩
  · show json_loads (update_content_cache m) = some (sortByKey m)
    exact json_loads_dumps m
  · intro hnd k
    have hnd' : (akeys (sortByKey m)).Nodup :=
      (((sortByKey_perm m).map Prod.fst).nodup_iff).mpr hnd
    exact alookup_perm (sortByKey m) m (sortByKey_perm m) hnd' k

/-- Witness for C6: on a concrete two-entry mapping the persisted file
parses back to the sorted mapping and lookups agree. -/
theorem cache_round_trip_witness :
    alookup "a" (sortByKey [("b", "2"), ("a", "1")]) =
      alookup "a" [("b", "2"), ("a", "1")] :=
  (cache_round_trip [("b", "2"), ("a", "1")]).2.2.2.2 (by decide) "a"

end LinkCategorizer
